import Mathlib

/-!
Verification development for the pathfinding-algorithms repository.

The Python source is shallowly embedded: classes become structures, methods
become functions, mutation becomes explicit state passing.  Python floats are
modelled as exact rationals (all concrete evaluations in this file stay in
ranges where IEEE double arithmetic is exact), with float(inf) modelled as
the top element of WithTop Rat.  math.sqrt is modelled by pySqrt, an
executable rational square root that agrees with the IEEE value exactly at
perfect squares; every theorem below that depends on a numeric square-root
value only evaluates it at perfect squares (mostly 0 and 1), and the
remaining theorems are independent of the values pySqrt takes.
Wall-clock execution_time is not modelled.
-/

/-- A discrete grid position, the Python tuple (x, y) of ints. -/
abbrev Pos := Int × Int

/-- Extended rational modelling a Python float that may be float(inf). -/
abbrev EQ := WithTop ℚ

/-- Executable square root on rationals: exact on perfect squares
(numerator and denominator both squares), an under-approximation elsewhere.
It stands in for math.sqrt; all value-sensitive uses below are at perfect
squares, where it agrees with IEEE doubles. -/
def pySqrt (q : ℚ) : ℚ :=
  mkRat (Int.sqrt q.num) (Nat.sqrt q.den)

/-- Euclidean distance between two rational points, as the Python code
computes it: sqrt(dx*dx + dy*dy). -/
def pyDist (a b : ℚ × ℚ) : ℚ :=
  pySqrt ((a.1 - b.1) * (a.1 - b.1) + (a.2 - b.2) * (a.2 - b.2))

/-- Python str() of an int pair, as produced by an f-string on a tuple:
"(x, y)". -/
def posStr (p : Pos) : String :=
  "(" ++ toString p.1 ++ ", " ++ toString p.2 ++ ")"

/-- The per-call performance counters kept on PathfindingAlgorithm
(underscore-prefixed attributes, zeroed by the method starting the timer). -/
structure Metrics where
  expanded : ℕ
  visited : ℕ
  max_memory : ℕ
  iterations : ℕ
deriving Repr, DecidableEq

/-- Counters immediately after the timing-start method zeroes them. -/
def Metrics.init : Metrics := ⟨0, 0, 0, 0⟩

def Metrics.expand (m : Metrics) : Metrics := { m with expanded := m.expanded + 1 }

def Metrics.visit (m : Metrics) : Metrics := { m with visited := m.visited + 1 }

def Metrics.mem (m : Metrics) (s : ℕ) : Metrics :=
  { m with max_memory := max m.max_memory s }

def Metrics.iter (m : Metrics) : Metrics := { m with iterations := m.iterations + 1 }

/-- PathfindingResult: the result container.  Fields mirror the Python
class; execution_time is omitted (wall clock), and max_open_set_size is
omitted because no code path ever assigns it (it stays 0). -/
structure PResult where
  path : List (ℚ × ℚ)
  path_length : ℚ
  path_cost : ℚ
  nodes_expanded : ℕ
  nodes_visited : ℕ
  memory_usage : ℕ
  found : Bool
  iterations : ℕ
  error_message : Option String
deriving Repr, DecidableEq

/-- PathfindingResult.calculate_path_length: 0 for fewer than two waypoints,
else the sum over i of sqrt(dx*dx + dy*dy) between consecutive waypoints. -/
def calculate_path_length : List (ℚ × ℚ) → ℚ
  | [] => 0
  | [_] => 0
  | a :: b :: rest =>
      pyDist a b + calculate_path_length (b :: rest)

/-- PathfindingAlgorithm._create_result: builds a fresh PathfindingResult,
filling the path, found flag and error message, computing path_length when
the path is non-empty, and copying the current counters.  path_cost keeps
the constructor default 0.0: no code in the repository ever assigns it. -/
def create_result (m : Metrics) (path : List (ℚ × ℚ)) (found : Bool)
    (error_message : Option String) : PResult :=
  { path := path
    path_length := if path.isEmpty then 0 else calculate_path_length path
    path_cost := 0
    nodes_expanded := m.expanded
    nodes_visited := m.visited
    memory_usage := m.max_memory
    found := found
    iterations := m.iterations
    error_message := error_message }

/-- Grid: topology together with the per-cell mutable search scratch state
that the Python code stores on the node objects owned by the grid.  Python
keeps one node object per cell holding walkable, g_cost, h_cost, f_cost,
parent, visited and in_open_set; here the per-cell maps are fields of the
grid value so that mutation is explicit state passing. -/
structure Grid where
  width : Int
  height : Int
  walkableAt : Pos → Bool
  diagonal_movement : Bool
  diagonal_cost : ℚ
  straight_cost : ℚ
  g_cost : Pos → EQ
  h_cost : Pos → ℚ
  f_cost : Pos → EQ
  parent : Pos → Option Pos
  visited : Pos → Bool
  in_open_set : Pos → Bool

/-- Grid.is_valid_position. -/
def Grid.is_valid_position (g : Grid) (x y : Int) : Bool :=
  0 ≤ x && x < g.width && 0 ≤ y && y < g.height

/-- Grid.is_walkable: in bounds and the node is walkable. -/
def Grid.is_walkable (g : Grid) (x y : Int) : Bool :=
  g.is_valid_position x y && g.walkableAt (x, y)

/-- The neighbor direction list: four straight directions, extended by the
four diagonals when diagonal movement is on. -/
def Grid.directions (g : Grid) : List (Int × Int) :=
  [(0, 1), (1, 0), (0, -1), (-1, 0)] ++
    (if g.diagonal_movement then [(1, 1), (1, -1), (-1, 1), (-1, -1)] else [])

/-- Grid.get_neighbors: walkable neighbors of a cell, in direction order. -/
def Grid.get_neighbors (g : Grid) (p : Pos) : List Pos :=
  (g.directions.map (fun d => (p.1 + d.1, p.2 + d.2))).filter
    (fun q => g.is_walkable q.1 q.2)

/-- Grid.get_movement_cost: diagonal cost for a unit diagonal step, straight
cost for a unit straight step, float(inf) otherwise. -/
def Grid.get_movement_cost (g : Grid) (a b : Pos) : EQ :=
  if (b.1 - a.1).natAbs = 1 && (b.2 - a.2).natAbs = 1 then (g.diagonal_cost : EQ)
  else if ((b.1 - a.1).natAbs = 1 && (b.2 - a.2).natAbs = 0)
      || ((b.1 - a.1).natAbs = 0 && (b.2 - a.2).natAbs = 1) then
    (g.straight_cost : EQ)
  else ⊤

/-- Grid.reset_pathfinding_data: every node gets g = inf, h = 0, f = inf,
parent = None, visited = False, in_open_set = False. -/
def Grid.reset_pathfinding_data (g : Grid) : Grid :=
  { g with
    g_cost := fun _ => ⊤
    h_cost := fun _ => 0
    f_cost := fun _ => ⊤
    parent := fun _ => none
    visited := fun _ => false
    in_open_set := fun _ => false }

/-- PathfindingAlgorithm.validate_inputs, with the exact Python message
strings (an f-string renders the position tuple as "(x, y)"). -/
def validate_inputs (g : Grid) (start goal : Pos) : Option String :=
  if ¬ g.is_valid_position start.1 start.2 then
    some ("Start position " ++ posStr start ++ " is outside grid bounds")
  else if ¬ g.is_valid_position goal.1 goal.2 then
    some ("Goal position " ++ posStr goal ++ " is outside grid bounds")
  else if ¬ g.is_walkable start.1 start.2 then
    some ("Start position " ++ posStr start ++ " is not walkable")
  else if ¬ g.is_walkable goal.1 goal.2 then
    some ("Goal position " ++ posStr goal ++ " is not walkable")
  else
    none

/-- The heuristic_type strings accepted by get_heuristic; any other string
falls through to the euclidean branch, so three cases suffice. -/
inductive HType where
  | manhattan
  | euclidean
  | diagonal
deriving Repr, DecidableEq

/-- GridNode.manhattan_distance. -/
def manhattan_distance (a b : Pos) : ℚ :=
  ((a.1 - b.1).natAbs : ℚ) + ((a.2 - b.2).natAbs : ℚ)

/-- GridNode.euclidean_distance (math.sqrt modelled by pySqrt). -/
def euclidean_distance (a b : Pos) : ℚ :=
  pySqrt (((a.1 - b.1) * (a.1 - b.1) + (a.2 - b.2) * (a.2 - b.2) : Int) : ℚ)

/-- GridNode.diagonal_distance (Chebyshev). -/
def diagonal_distance (a b : Pos) : ℚ :=
  max ((a.1 - b.1).natAbs : ℚ) ((a.2 - b.2).natAbs : ℚ)

/-- PathfindingAlgorithm.get_heuristic. -/
def get_heuristic (t : HType) (a b : Pos) : ℚ :=
  match t with
  | .manhattan => manhattan_distance a b
  | .euclidean => euclidean_distance a b
  | .diagonal => diagonal_distance a b

/-- WeightedGrid.TERRAIN_COSTS, with the dict .get default of 1.0 for any
unknown terrain string. -/
def terrain_costs (s : String) : EQ :=
  if s = "grass" then (1 : ℚ)
  else if s = "sand" then ((3 / 2 : ℚ) : EQ)
  else if s = "mud" then (2 : ℚ)
  else if s = "water" then (3 : ℚ)
  else if s = "mountain" then (4 : ℚ)
  else if s = "wall" then ⊤
  else (1 : ℚ)

/-- WeightedGrid: a Grid together with a terrain string per cell. -/
structure WeightedGrid extends Grid where
  terrainAt : Pos → String

/-- WeightedGrid.get_terrain_cost: table cost of the terrain at an in-bounds
position, float(inf) outside the grid. -/
def WeightedGrid.get_terrain_cost (g : WeightedGrid) (x y : Int) : EQ :=
  if g.is_valid_position x y then terrain_costs (g.terrainAt (x, y)) else ⊤

/-- Half of an extended rational, modelling float division by 2 (inf / 2 is
inf). -/
def EQ.half : EQ → EQ
  | ⊤ => ⊤
  | (q : ℚ) => ((q / 2 : ℚ) : EQ)

/-- WeightedGrid.get_movement_cost: the base grid cost scaled by the average
terrain cost of the two endpoints; an infinite base cost is returned as is. -/
def WeightedGrid.get_movement_cost (g : WeightedGrid) (a b : Pos) : EQ :=
  match g.toGrid.get_movement_cost a b with
  | ⊤ => ⊤
  | (c : ℚ) =>
      (c : EQ) * EQ.half (g.get_terrain_cost a.1 a.2 + g.get_terrain_cost b.1 b.2)

/-- Two cells are grid-adjacent when they differ by one king-move step:
exactly the configurations to which get_movement_cost gives a finite cost. -/
def adjacentPos (a b : Pos) : Bool :=
  ((b.1 - a.1).natAbs = 1 && (b.2 - a.2).natAbs = 1)
    || ((b.1 - a.1).natAbs = 1 && (b.2 - a.2).natAbs = 0)
    || ((b.1 - a.1).natAbs = 0 && (b.2 - a.2).natAbs = 1)

/-- Spec-side definition for claim C10, written from the spec words: the
path length is the sum of Euclidean distances between consecutive returned
waypoints. -/
def specEuclideanLength (path : List (ℚ × ℚ)) : ℚ :=
  (path.zip path.tail).foldr (fun ab acc => pyDist ab.1 ab.2 + acc) 0

/-- The IEEE double value of math.sqrt(2), as an exact rational. -/
def sqrt2F : ℚ := 6369051672525773 / 4503599627370496

/-- A freshly constructed Grid(w, h) with the given cells made unwalkable:
the constructor defaults (diagonal movement on, diagonal cost sqrt 2,
straight cost 1) and the node constructor defaults for the scratch state. -/
def mkGrid (w h : Int) (blocked : List Pos) : Grid :=
  { width := w
    height := h
    walkableAt := fun p => !(blocked.contains p)
    diagonal_movement := true
    diagonal_cost := sqrt2F
    straight_cost := 1
    g_cost := fun _ => ⊤
    h_cost := fun _ => 0
    f_cost := fun _ => ⊤
    parent := fun _ => none
    visited := fun _ => false
    in_open_set := fun _ => false }

/-- A heapq entry as the classical engines push it: the priority value, the
Python id() of the node object, and the node.  Tuple comparison is
lexicographic, and since distinct node objects have distinct ids the third
component is never compared. -/
abbrev HeapEntry := EQ × Int × Pos

/-- Strict lexicographic comparison on the first two components of a heap
entry, exactly the order heapq sees on these tuples. -/
def entryLT (e f : HeapEntry) : Bool :=
  e.1 < f.1 || (e.1 = f.1 && e.2.1 < f.2.1)

/-- Extraction of the minimum entry of a list, returning the leftmost
minimal element and the remaining list.  On entry lists whose (priority, id)
keys are pairwise distinct — an invariant of every engine run, since an
engine re-pushes a node only with a strictly smaller priority — this is
exactly what heapq.heappop returns. -/
def popMinBy (lt : α → α → Bool) : List α → Option (α × List α)
  | [] => none
  | x :: xs =>
      match popMinBy lt xs with
      | none => some (x, [])
      | some (m, rest) => if lt m x then some (m, x :: rest) else some (x, xs)

/-- Integer grid position as the float pair stored in a result path. -/
def posQ (p : Pos) : ℚ × ℚ := ((p.1 : ℚ), (p.2 : ℚ))

def Grid.setG (g : Grid) (p : Pos) (v : EQ) : Grid :=
  { g with g_cost := fun q => if q = p then v else g.g_cost q }

def Grid.setH (g : Grid) (p : Pos) (v : ℚ) : Grid :=
  { g with h_cost := fun q => if q = p then v else g.h_cost q }

def Grid.setF (g : Grid) (p : Pos) (v : EQ) : Grid :=
  { g with f_cost := fun q => if q = p then v else g.f_cost q }

def Grid.setParent (g : Grid) (p : Pos) (v : Option Pos) : Grid :=
  { g with parent := fun q => if q = p then v else g.parent q }

def Grid.setOpenFlag (g : Grid) (p : Pos) (v : Bool) : Grid :=
  { g with in_open_set := fun q => if q = p then v else g.in_open_set q }

/-- Parent-chain walk used by Grid.get_path, in goal-to-start order.  The
fuel bounds the walk; the parent forests produced by the searches are
acyclic, so a fuel of one more than the cell count is never exhausted on a
real run. -/
def getPathRev (g : Grid) : ℕ → Option Pos → List Pos
  | _, none => []
  | 0, some p => [p]
  | fuel + 1, some p => p :: getPathRev g fuel (g.parent p)

/-- Grid.get_path: walk parents from the goal and reverse. -/
def Grid.get_path (g : Grid) (fuel : ℕ) (p : Pos) : List Pos :=
  (getPathRev g fuel (some p)).reverse

/-- The running state of the Dijkstra main loop.  pushes and pops record
every heap push and heap pop in order; they are observational instrumentation
only — no branch reads them. -/
structure DijState where
  grid : Grid
  open_set : List HeapEntry
  visitedSet : List Pos
  m : Metrics
  pushes : List HeapEntry
  pops : List HeapEntry

/-- One neighbor-examination step of the Dijkstra loop body. -/
def dijkstraRelax (pid : Pos → Int) (cur : Pos) (st : DijState) (n : Pos) :
    DijState :=
  let st := { st with m := st.m.visit }
  if n ∈ st.visitedSet then st
  else
    let distance := st.grid.g_cost cur + st.grid.get_movement_cost cur n
    if distance < st.grid.g_cost n then
      let grid := ((st.grid.setG n distance).setF n distance).setParent n (some cur)
      let e : HeapEntry := (distance, pid n, n)
      { st with
        grid := grid
        open_set := st.open_set ++ [e]
        pushes := st.pushes ++ [e] }
    else st

/-- The Dijkstra main loop (source lines 70 to 110): pop the smallest
(distance, id) entry, skip it when already visited, stop at the goal,
otherwise relax all neighbors.  Fuel only bounds the recursion; on the
concrete runs below it is never exhausted. -/
def dijkstraLoop (pid : Pos → Int) (goal : Pos) :
    ℕ → DijState → DijState × Option (List Pos)
  | 0, st => (st, none)
  | fuel + 1, st =>
      match popMinBy entryLT st.open_set with
      | none => (st, none)
      | some (e, rest) =>
          let st := { st with
            m := (st.m.iter).mem (st.open_set.length + st.visitedSet.length)
            open_set := rest
            pops := st.pops ++ [e] }
          let cur := e.2.2
          if cur ∈ st.visitedSet then
            dijkstraLoop pid goal fuel st
          else
            let st := { st with
              visitedSet := st.visitedSet ++ [cur]
              m := st.m.expand }
            if cur = goal then
              (st, some (st.grid.get_path (fuel + 1) cur))
            else
              let st := (st.grid.get_neighbors cur).foldl (dijkstraRelax pid cur) st
              dijkstraLoop pid goal fuel st

/-- Dijkstra.find_path.  Returns the result together with the heap push and
pop traces.  The algorithm_data dictionary entries are not modelled. -/
def dijkstra_find_path (pid : Pos → Int) (fuel : ℕ) (grid0 : Grid)
    (start goal : Pos) : PResult × List HeapEntry × List HeapEntry :=
  let m := Metrics.init
  match validate_inputs grid0 start goal with
  | some msg => (create_result m [] false (some msg), [], [])
  | none =>
      let grid := grid0.reset_pathfinding_data
      if ¬ (grid.is_valid_position start.1 start.2
          && grid.is_valid_position goal.1 goal.2) then
        (create_result m [] false (some "Invalid start or goal node"), [], [])
      else if start = goal then
        (create_result m [posQ start] true none, [], [])
      else
        let grid := (grid.setG start 0).setF start 0
        let e0 : HeapEntry := ((0 : ℚ), pid start, start)
        let st0 : DijState :=
          ⟨grid, [e0], [], m, [e0], []⟩
        match dijkstraLoop pid goal fuel st0 with
        | (st, some path) =>
            (create_result st.m (path.map posQ) true none, st.pushes, st.pops)
        | (st, none) =>
            (create_result st.m [] false (some "No path exists"),
              st.pushes, st.pops)

/-- The running state of the A star main loop. -/
structure AStarState where
  grid : Grid
  open_set : List HeapEntry
  closed_set : List Pos
  m : Metrics

/-- One neighbor-examination step of the A star loop body (source lines 96
to 124): fresh nodes get their heuristic computed and are always relaxed,
open nodes are relaxed only on a strict g improvement. -/
def astarRelax (ht : HType) (w : ℚ) (pid : Pos → Int) (goal cur : Pos)
    (st : AStarState) (n : Pos) : AStarState :=
  let st := { st with m := st.m.visit }
  if n ∈ st.closed_set then st
  else
    let tentative := st.grid.g_cost cur + st.grid.get_movement_cost cur n
    let fresh := ¬ st.grid.in_open_set n
    let grid :=
      if fresh then
        (st.grid.setH n (get_heuristic ht n goal)).setOpenFlag n true
      else st.grid
    if fresh || tentative < grid.g_cost n then
      let grid := (grid.setParent n (some cur)).setG n tentative
      let f := grid.g_cost n + ((w * grid.h_cost n : ℚ) : EQ)
      let grid := grid.setF n f
      { st with
        grid := grid
        open_set := st.open_set ++ [(f, pid n, n)] }
    else { st with grid := grid }

/-- The A star main loop (source lines 78 to 125): pop the smallest
(f, id) entry, clear its open flag, stop at the goal, move it to the closed
set and relax its neighbors. -/
def astarLoop (ht : HType) (w : ℚ) (pid : Pos → Int) (goal : Pos) :
    ℕ → AStarState → AStarState × Option (List Pos)
  | 0, st => (st, none)
  | fuel + 1, st =>
      match popMinBy entryLT st.open_set with
      | none => (st, none)
      | some (e, rest) =>
          let st := { st with
            m := (st.m.iter).mem (st.open_set.length + st.closed_set.length)
            open_set := rest }
          let cur := e.2.2
          let st := { st with grid := st.grid.setOpenFlag cur false }
          if cur = goal then
            (st, some (st.grid.get_path (fuel + 1) cur))
          else
            let st := { st with
              closed_set :=
                if cur ∈ st.closed_set then st.closed_set
                else st.closed_set ++ [cur]
              m := st.m.expand }
            let st := (st.grid.get_neighbors cur).foldl
              (astarRelax ht w pid goal cur) st
            astarLoop ht w pid goal fuel st

/-- AStar.find_path (also the base of the packaged WeightedAStar subclass,
which only changes the weight and adds dictionary diagnostics). -/
def astar_find_path (ht : HType) (w : ℚ) (pid : Pos → Int) (fuel : ℕ)
    (grid0 : Grid) (start goal : Pos) : PResult :=
  let m := Metrics.init
  match validate_inputs grid0 start goal with
  | some msg => create_result m [] false (some msg)
  | none =>
      let grid := grid0.reset_pathfinding_data
      if ¬ (grid.is_valid_position start.1 start.2
          && grid.is_valid_position goal.1 goal.2) then
        create_result m [] false (some "Invalid start or goal node")
      else if start = goal then
        create_result m [posQ start] true none
      else
        let h0 := get_heuristic ht start goal
        let f0 : EQ := ((0 + w * h0 : ℚ) : EQ)
        let grid := (((grid.setG start 0).setH start h0).setF start f0).setOpenFlag
          start true
        let st0 : AStarState := ⟨grid, [(f0, pid start, start)], [], m⟩
        match astarLoop ht w pid goal fuel st0 with
        | (st, some path) => create_result st.m (path.map posQ) true none
        | (st, none) => create_result st.m [] false (some "No path exists")

/-- Heuristic selector of the standalone classical/weighted_astar.py module:
manhattan, euclidean or octile, any other string defaulting to manhattan. -/
inductive WAHType where
  | manhattan
  | euclidean
  | octile
deriving Repr, DecidableEq

/-- The standalone module heuristic (math.sqrt modelled by pySqrt). -/
def wa_heuristic (t : WAHType) (a b : Pos) : ℚ :=
  match t with
  | .manhattan => manhattan_distance a b
  | .euclidean => euclidean_distance a b
  | .octile =>
      max ((a.1 - b.1).natAbs : ℚ) ((a.2 - b.2).natAbs : ℚ)
        + (pySqrt 2 - 1) * min ((a.1 - b.1).natAbs : ℚ) ((a.2 - b.2).natAbs : ℚ)

/-- The standalone module distance between positions: Euclidean. -/
def wa_distance (a b : Pos) : ℚ :=
  pySqrt (((a.1 - b.1) * (a.1 - b.1) + (a.2 - b.2) * (a.2 - b.2) : Int) : ℚ)

/-- The direction list of the standalone module, in source order. -/
def waDirections : List (Int × Int) :=
  [(-1, -1), (-1, 0), (-1, 1), (0, -1), (0, 1), (1, -1), (1, 0), (1, 1)]

/-- The standalone module neighbor enumeration.  For every in-bounds
candidate the code calls grid.is_obstacle, an attribute no grid class of the
repository defines, so reaching such a candidate raises AttributeError;
out-of-bounds candidates are skipped before the attribute access. -/
def wa_get_neighbors (g : Grid) (p : Pos) : Except String (List Pos) :=
  waDirections.foldlM
    (fun acc d =>
      let n : Pos := (p.1 + d.1, p.2 + d.2)
      if 0 ≤ n.1 && n.1 < g.width && 0 ≤ n.2 && n.2 < g.height then
        Except.error "AttributeError: Grid object has no attribute is_obstacle"
      else pure acc)
    ([] : List Pos)

/-- A heap entry of the standalone module: (f_score, position).  Ties on
f_score are resolved by comparing the position tuples. -/
def waEntryLT (e f : ℚ × Pos) : Bool :=
  e.1 < f.1
    || (e.1 = f.1
        && (e.2.1 < f.2.1 || (e.2.1 = f.2.1 && e.2.2 < f.2.2)))

/-- Association-list dictionary lookup. -/
def alookup (l : List (Pos × α)) (p : Pos) : Option α :=
  (l.find? (fun e => e.1 = p)).map (fun e => e.2)

/-- Association-list dictionary write (overwrite or append). -/
def aset (l : List (Pos × α)) (p : Pos) (v : α) : List (Pos × α) :=
  if (l.find? (fun e => e.1 = p)).isSome then
    l.map (fun e => if e.1 = p then (p, v) else e)
  else l ++ [(p, v)]

/-- The standalone module path reconstruction: follow came_from entries
until a key is absent, then reverse.  Fuel bounds the dictionary walk. -/
def waReconstruct (came_from : List (Pos × Pos)) : ℕ → Pos → List Pos
  | 0, cur => [cur]
  | fuel + 1, cur =>
      match alookup came_from cur with
      | none => [cur]
      | some prev => cur :: waReconstruct came_from fuel prev

/-- Loop state of the standalone module find_path. -/
structure WAState where
  open_set : List (ℚ × Pos)
  closed_set : List Pos
  came_from : List (Pos × Pos)
  g_score : List (Pos × ℚ)
  f_score : List (Pos × ℚ)

/-- Neighbor processing of the standalone module (source lines 75 to 92). -/
def waRelax (w : ℚ) (ht : WAHType) (goal cur : Pos) (st : WAState) (n : Pos) :
    WAState :=
  if n ∈ st.closed_set then st
  else
    let tentative := (alookup st.g_score cur).getD 0 + wa_distance cur n
    let better :=
      match alookup st.g_score n with
      | none => true
      | some gn => tentative < gn
    if better then
      let fn := tentative + w * wa_heuristic ht n goal
      let st := { st with
        came_from := aset st.came_from n cur
        g_score := aset st.g_score n tentative
        f_score := aset st.f_score n fn }
      if (st.open_set.map (fun e => e.2)).contains n then st
      else { st with open_set := st.open_set ++ [(fn, n)] }
    else st

/-- Main loop of the standalone module find_path (source lines 58 to 95).
On success it returns the reconstructed path, on frontier exhaustion the
Python value None, and it propagates the AttributeError raised by the
neighbor enumeration. -/
def waLoop (w : ℚ) (ht : WAHType) (grid : Grid) (goal : Pos) :
    ℕ → WAState → Except String (Option (List Pos))
  | 0, _ => Except.ok none
  | fuel + 1, st =>
      match popMinBy waEntryLT st.open_set with
      | none => Except.ok none
      | some ((_, cur), rest) =>
          let st := { st with open_set := rest }
          if cur ∈ st.closed_set then waLoop w ht grid goal fuel st
          else
            let st := { st with closed_set := st.closed_set ++ [cur] }
            if cur = goal then
              Except.ok (some (waReconstruct st.came_from (fuel + 1) cur).reverse)
            else
              match wa_get_neighbors grid cur with
              | Except.error e => Except.error e
              | Except.ok ns =>
                  waLoop w ht grid goal fuel
                    (ns.foldl (waRelax w ht goal cur) st)

/-- find_path of the standalone WeightedAStar in classical/weighted_astar.py.
It performs no input validation, never resets the grid scratch state, and
returns a bare waypoint list or the Python value None — never a
PathfindingResult.  (Its constructor also calls the base initializer without
the two required arguments, so instantiating the class raises TypeError; the
web layer nevertheless registers it as the weighted_astar engine.) -/
def wa_find_path (w : ℚ) (ht : WAHType) (fuel : ℕ) (grid : Grid)
    (start goal : Pos) : Except String (Option (List Pos)) :=
  let h0 := w * wa_heuristic ht start goal
  waLoop w ht grid goal fuel
    ⟨[(h0, start)], [], [], [(start, 0)], [(start, h0)]⟩

/-- Python int() truncation toward zero on a rational. -/
def pyInt (q : ℚ) : Int :=
  if 0 ≤ q then ⌊q⌋ else ⌈q⌉

/-- The geometric Bresenham traversal of AngleGrid.has_line_of_sight: the
list of cells the loop visits, independent of walkability.  One cell is
visited per loop iteration; the walk stops at the target cell.  The fuel
bounds the recursion and dx + dy + 1 always suffices (bresTrail_reaches). -/
def bresTrail (tgt : Pos) (dx dy xstep ystep : Int) :
    ℕ → Int → Int → Int → List Pos
  | 0, x, y, _ => [(x, y)]
  | fuel + 1, x, y, err =>
      if (x, y) = tgt then [(x, y)]
      else
        let e2 := 2 * err
        let x' := if e2 > -dy then x + xstep else x
        let err1 := if e2 > -dy then err - dy else err
        let y' := if e2 < dx then y + ystep else y
        let err2 := if e2 < dx then err1 + dx else err1
        (x, y) :: bresTrail tgt dx dy xstep ystep fuel x' y' err2

/-- The AngleGrid.has_line_of_sight loop itself: visit cells in bresTrail
order, returning False at the first unwalkable cell and True on reaching
the target.  Kept separate from bresTrail so that the early False return of
the source is modelled exactly. -/
def losRun (g : Grid) (tgt : Pos) (dx dy xstep ystep : Int) :
    ℕ → Int → Int → Int → Bool
  | 0, x, y, _ => g.is_walkable x y
  | fuel + 1, x, y, err =>
      if ¬ g.is_walkable x y then false
      else if (x, y) = tgt then true
      else
        let e2 := 2 * err
        let x' := if e2 > -dy then x + xstep else x
        let err1 := if e2 > -dy then err - dy else err
        let y' := if e2 < dx then y + ystep else y
        let err2 := if e2 < dx then err1 + dx else err1
        losRun g tgt dx dy xstep ystep fuel x' y' err2

/-- The cells traversed by AngleGrid.has_line_of_sight between two float
points, after the int() conversion of the endpoints. -/
def line_of_sight_cells (x1 y1 x2 y2 : ℚ) : List Pos :=
  let ix1 := pyInt x1
  let iy1 := pyInt y1
  let ix2 := pyInt x2
  let iy2 := pyInt y2
  let dx := |ix2 - ix1|
  let dy := |iy2 - iy1|
  let xstep : Int := if ix1 < ix2 then 1 else -1
  let ystep : Int := if iy1 < iy2 then 1 else -1
  bresTrail (ix2, iy2) dx dy xstep ystep (dx + dy).toNat ix1 iy1 (dx - dy)

/-- AngleGrid.has_line_of_sight (source lines 157 to 194). -/
def has_line_of_sight (g : Grid) (x1 y1 x2 y2 : ℚ) : Bool :=
  let ix1 := pyInt x1
  let iy1 := pyInt y1
  let ix2 := pyInt x2
  let iy2 := pyInt y2
  let dx := |ix2 - ix1|
  let dy := |iy2 - iy1|
  let xstep : Int := if ix1 < ix2 then 1 else -1
  let ystep : Int := if iy1 < iy2 then 1 else -1
  losRun g (ix2, iy2) dx dy xstep ystep (dx + dy).toNat ix1 iy1 (dx - dy)

/-- ThetaStar._line_of_sight_check: delegates to the grid line-of-sight
query on the float coordinates.  LazyThetaStar calls grid.has_line_of_sight
directly with the same arguments. -/
def theta_line_of_sight_check (g : Grid) (c : ℚ × ℚ) (n : Pos) : Bool :=
  has_line_of_sight g c.1 c.2 (n.1 : ℚ) (n.2 : ℚ)

/-- IncrementalPhiStar._has_line_of_sight (source lines 254 to 258): the
body is a placeholder that ignores both nodes and the grid and returns
True unconditionally. -/
def phi_has_line_of_sight (_ : Grid) (_ : Pos) (_ : Pos) : Bool :=
  true

/-- Result alternatives of IDAStar._search: the strings FOUND (with the
solution path the Python code stores on self), NOT_FOUND and CUTOFF. -/
inductive IdaRes where
  | found (path : List Pos)
  | notFound
  | cutoff
deriving Repr, DecidableEq

/-- State threaded through IDAStar._search: the running next_threshold
(minimum f observed above the current threshold, initially inf) and the
performance counters. -/
structure IdaInner where
  next_threshold : EQ
  m : Metrics

mutual

/-- IDAStar._search (source lines 99 to 149): depth-first search with
threshold pruning.  Fuel bounds the recursion depth; since the path-
membership test stops cycles, Python recursion depth is bounded by the cell
count and a fuel of that size is never exhausted on a real run. -/
def ida_search (ht : HType) (grid : Grid) (goal : Pos) (threshold : EQ)
    (fuel : ℕ) (node : Pos) (gcost : EQ) (path : List Pos) (st : IdaInner) :
    IdaRes × IdaInner :=
  match fuel with
  | 0 => (.cutoff, st)
  | fuel' + 1 =>
      let h := get_heuristic ht node goal
      let f := gcost + (h : EQ)
      if f > threshold then
        (.cutoff, { st with next_threshold := min st.next_threshold f })
      else if node = goal then
        (.found path, st)
      else
        let st := { st with m := (st.m.mem path.length).expand }
        idaChildren ht grid goal threshold fuel' node gcost path
          (grid.get_neighbors node) false st
termination_by (fuel, 0)

/-- The neighbor loop inside IDAStar._search, with the FOUND early return
and the cutoff_occurred flag. -/
def idaChildren (ht : HType) (grid : Grid) (goal : Pos) (threshold : EQ)
    (fuel : ℕ) (node : Pos) (gcost : EQ) (path : List Pos) (ns : List Pos)
    (cutoff : Bool) (st : IdaInner) : IdaRes × IdaInner :=
  match ns with
  | [] => (if cutoff then (.cutoff, st) else (.notFound, st))
  | n :: rest =>
      let st := { st with m := st.m.visit }
      if n ∈ path then
        idaChildren ht grid goal threshold fuel node gcost path rest cutoff st
      else
        let move := grid.get_movement_cost node n
        match ida_search ht grid goal threshold fuel n (gcost + move)
            (path ++ [n]) st with
        | (.found p, st) => (.found p, st)
        | (.cutoff, st) =>
            idaChildren ht grid goal threshold fuel node gcost path rest true st
        | (.notFound, st) =>
            idaChildren ht grid goal threshold fuel node gcost path rest cutoff st
termination_by (fuel, ns.length + 1)

end

/-- The threshold loop of IDAStar.find_path (source lines 73 to 97).
Returns the solution path when found, a flag recording a definitive
NOT_FOUND, the counters, and the list of thresholds used by the successive
outer iterations (in order). -/
def idaLoop (ht : HType) (grid : Grid) (start goal : Pos) (sfuel : ℕ) :
    ℕ → EQ → Metrics → Option (List Pos) × Bool × Metrics × List EQ
  | 0, _, m => (none, false, m, [])
  | remaining + 1, threshold, m =>
      let inner : IdaInner := ⟨⊤, m⟩
      match ida_search ht grid goal threshold sfuel start 0 [start] inner with
      | (.found p, st) => (some p, false, st.m.iter, [threshold])
      | (.notFound, st) => (none, true, st.m.iter, [threshold])
      | (.cutoff, st) =>
          match idaLoop ht grid start goal sfuel remaining st.next_threshold
              st.m.iter with
          | (r, nf, m', trace) => (r, nf, m', threshold :: trace)

/-- IDAStar.find_path.  Returns the result together with the threshold
trace (ghost observation of self.current_threshold at each outer
iteration). -/
def ida_find_path (ht : HType) (max_iterations : ℕ) (sfuel : ℕ)
    (grid0 : Grid) (start goal : Pos) : PResult × List EQ :=
  let m := Metrics.init
  match validate_inputs grid0 start goal with
  | some msg => (create_result m [] false (some msg), [])
  | none =>
      let grid := grid0.reset_pathfinding_data
      if ¬ (grid.is_valid_position start.1 start.2
          && grid.is_valid_position goal.1 goal.2) then
        (create_result m [] false (some "Invalid start or goal node"), [])
      else if start = goal then
        (create_result m [posQ start] true none, [])
      else
        let t0 : EQ := ((get_heuristic ht start goal : ℚ) : EQ)
        match idaLoop ht grid start goal sfuel max_iterations t0 m with
        | (some p, _, m, trace) =>
            (create_result m (p.map posQ) true none, trace)
        | (none, true, m, trace) =>
            (create_result m [] false (some "No path exists"), trace)
        | (none, false, m, trace) =>
            (create_result m [] false
              (some ("Maximum iterations (" ++ toString max_iterations
                ++ ") exceeded")), trace)

/-- DynamicGrid: the base grid plus the DynamicNode fields used by
Incremental Phi star (rhs and the change flag; the key and in_queue node
fields are never read by the algorithm and are omitted). -/
structure DynGrid extends Grid where
  rhs : Pos → EQ
  cost_changed : Pos → Bool

def DynGrid.setG (g : DynGrid) (p : Pos) (v : EQ) : DynGrid :=
  { g with toGrid := g.toGrid.setG p v }

def DynGrid.setRhs (g : DynGrid) (p : Pos) (v : EQ) : DynGrid :=
  { g with rhs := fun q => if q = p then v else g.rhs q }

/-- DynamicNode.reset extends the base reset with rhs = inf and a cleared
change flag. -/
def DynGrid.reset_pathfinding_data (g : DynGrid) : DynGrid :=
  { g with
    toGrid := g.toGrid.reset_pathfinding_data
    rhs := fun _ => ⊤
    cost_changed := fun _ => false }

/-- DynamicGrid.get_changed_nodes, in the row-major order of the node
storage. -/
def DynGrid.get_changed_nodes (g : DynGrid) : List Pos :=
  (List.range g.height.toNat).flatMap (fun y =>
    (List.range g.width.toNat).filterMap (fun x =>
      if g.cost_changed ((x : Int), (y : Int)) then
        some ((x : Int), (y : Int))
      else none))

def DynGrid.clear_change_flags (g : DynGrid) : DynGrid :=
  { g with cost_changed := fun _ => false }

/-- DynamicNode.is_consistent: abs(g - rhs) < 1e-6.  When both values are
inf the Python subtraction yields nan and the comparison is False, so two
infinite values are inconsistent; any one infinite value likewise compares
False. -/
def consistentB (gc rhs : EQ) : Bool :=
  match gc, rhs with
  | (a : ℚ), (b : ℚ) => |a - b| < 1 / 1000000
  | _, _ => false

/-- The persistent object state of an IncrementalPhiStar instance. -/
structure PhiState where
  goal_node : Option Pos
  open_set : List (EQ × EQ × Int × Pos)
  open_set_dict : List (Pos × EQ)
  closed_set : List Pos
  inconsistent_nodes : List Pos

def adel (l : List (Pos × α)) (p : Pos) : List (Pos × α) :=
  l.filter (fun e => ¬ e.1 = p)

/-- IncrementalPhiStar._calculate_key with suboptimality bound eps. -/
def phi_calculate_key (ht : HType) (eps : ℚ) (dg : DynGrid) (node start : Pos) :
    EQ × EQ :=
  let mgr := min (dg.g_cost node) (dg.rhs node)
  (mgr + ((eps * get_heuristic ht node start : ℚ) : EQ), mgr)

/-- IncrementalPhiStar._update_vertex: drop the dict entry, then re-queue
the node with a fresh key when it is inconsistent.  Stale heap entries are
left in place, as in the source. -/
def phi_update_vertex (ht : HType) (eps : ℚ) (pid : Pos → Int) (start : Pos)
    (dg : DynGrid) (st : PhiState) (node : Pos) : PhiState :=
  let st := { st with open_set_dict := adel st.open_set_dict node }
  if ¬ consistentB (dg.g_cost node) (dg.rhs node) then
    let key := phi_calculate_key ht eps dg node start
    { st with
      open_set := st.open_set ++ [(key.1, key.2, pid node, node)]
      open_set_dict := aset st.open_set_dict node key.1 }
  else st

/-- IncrementalPhiStar._get_any_angle_cost.  The line-of-sight helper it
calls is the always-True placeholder, so the direct-line branch is always
taken; the grid-cost fallback is kept to mirror the source. -/
def phi_get_any_angle_cost (dg : DynGrid) (a b : Pos) : EQ :=
  if phi_has_line_of_sight dg.toGrid a b then
    ((euclidean_distance a b : ℚ) : EQ)
  else
    dg.toGrid.get_movement_cost a b

/-- IncrementalPhiStar._initialize_search: reset the grid scratch state,
clear the persistent structures, seed the goal with rhs 0 and queue it. -/
def phi_initialize_search (ht : HType) (eps : ℚ) (pid : Pos → Int)
    (dg : DynGrid) (start goal : Pos) : PhiState × DynGrid :=
  let dg := dg.reset_pathfinding_data
  let st : PhiState := ⟨some goal, [], [], [], []⟩
  let dg := (dg.setRhs goal 0).setG goal ⊤
  (phi_update_vertex ht eps pid start dg st goal, dg)

/-- IncrementalPhiStar._has_valid_search_data.  Python operator precedence
parses the body as (goal set AND open set non-empty) OR closed set
non-empty. -/
def phi_has_valid_search_data (st : PhiState) : Bool :=
  (st.goal_node.isSome && ¬ st.open_set.isEmpty) || ¬ st.closed_set.isEmpty

/-- IncrementalPhiStar._handle_updates (source lines 110 to 138): recompute
rhs of each changed cell from its predecessors, re-queue it, collect its
neighbors as inconsistent, then re-queue those.  The Python code iterates a
set of inconsistent nodes; the model keeps first-insertion order, the
resulting state differing at most in the order of stale heap entries. -/
def phi_handle_updates (ht : HType) (eps : ℚ) (pid : Pos → Int) (start : Pos)
    (stdg : PhiState × DynGrid) (changed : List Pos) : PhiState × DynGrid :=
  let (st, dg) := stdg
  let (st, dg) := changed.foldl
    (fun (acc : PhiState × DynGrid) node =>
      let (st, dg) := acc
      let preds := dg.toGrid.get_neighbors node
      let dg :=
        if st.goal_node ≠ some node then
          let min_rhs := preds.foldl
            (fun (mr : EQ) pred =>
              if dg.g_cost pred ≠ ⊤ then
                min mr (dg.g_cost pred + phi_get_any_angle_cost dg pred node)
              else mr) ⊤
          dg.setRhs node min_rhs
        else dg
      let st := phi_update_vertex ht eps pid start dg st node
      let st := (dg.toGrid.get_neighbors node).foldl
        (fun st n =>
          if st.goal_node ≠ some n ∧ n ∉ st.inconsistent_nodes then
            { st with inconsistent_nodes := st.inconsistent_nodes ++ [n] }
          else st) st
      (st, dg))
    (st, dg)
  let st := st.inconsistent_nodes.foldl
    (fun st node => phi_update_vertex ht eps pid start dg st node) st
  ({ st with inconsistent_nodes := [] }, dg.clear_change_flags)

/-- The greedy best-neighbor walk of
IncrementalPhiStar._reconstruct_any_angle_path.  The source while loop can
cycle forever on adversarial g values; the fuel bounds the walk and the
runs evaluated below stay well within it. -/
def phi_reconstruct (dg : DynGrid) (goal : Pos) : ℕ → Pos → List (ℚ × ℚ)
  | 0, _ => [posQ goal]
  | fuel + 1, cur =>
      if cur = goal then [posQ goal]
      else
        let best := (dg.toGrid.get_neighbors cur).foldl
          (fun (acc : Option Pos × EQ) n =>
            if dg.g_cost n < acc.2 then (some n, dg.g_cost n) else acc)
          (none, ⊤)
        match best.1 with
        | none => [posQ cur, posQ goal]
        | some next => posQ cur :: phi_reconstruct dg goal fuel next

/-- IncrementalPhiStar._search.  The heap entries are 4-tuples
(k1, k2, id, node), but _top_key unpacks self.open_set[0] into three names,
so evaluating the loop guard with a non-empty queue raises
"ValueError: too many values to unpack (expected 3)"; the entire loop body
is therefore unreachable and the only executable paths are the guard
exception and, with an empty queue, the final g test and reconstruction. -/
def phi_search (dg : DynGrid) (st : PhiState) (start goal : Pos)
    (rfuel : ℕ) (m : Metrics) : Except String PResult :=
  if ¬ st.open_set.isEmpty then
    Except.error "ValueError: too many values to unpack (expected 3)"
  else if dg.g_cost start = ⊤ then
    Except.ok (create_result m [] false (some "No path exists"))
  else
    Except.ok (create_result m (phi_reconstruct dg goal rfuel start) true none)

/-- IncrementalPhiStar.find_path (source lines 41 to 88).  The isinstance
check always passes here since the model fixes the grid type.  The
algorithm_data entries added on success are not modelled. -/
def phi_find_path (ht : HType) (eps : ℚ) (pid : Pos → Int) (rfuel : ℕ)
    (st : PhiState) (dg0 : DynGrid) (start goal : Pos) :
    Except String (PResult × PhiState × DynGrid) :=
  let m := Metrics.init
  match validate_inputs dg0.toGrid start goal with
  | some msg => Except.ok (create_result m [] false (some msg), st, dg0)
  | none =>
      if ¬ (dg0.is_valid_position start.1 start.2
          && dg0.is_valid_position goal.1 goal.2) then
        Except.ok (create_result m [] false
          (some "Invalid start or goal node"), st, dg0)
      else if start = goal then
        Except.ok (create_result m [posQ start] true none, st, dg0)
      else
        let (st, dg) :=
          if st.goal_node ≠ some goal ∨ ¬ phi_has_valid_search_data st then
            phi_initialize_search ht eps pid dg0 start goal
          else
            let changed := dg0.get_changed_nodes
            if ¬ changed.isEmpty then
              phi_handle_updates ht eps pid start (st, dg0) changed
            else (st, dg0)
        match phi_search dg st start goal rfuel m with
        | Except.error e => Except.error e
        | Except.ok r => Except.ok (r, st, dg)

/-- Python round() with banker rounding (round-half-even), composed with
the int() conversion used by the collision sampler. -/
def pyRound (q : ℚ) : Int :=
  let f := ⌊q⌋
  let r := q - (f : ℚ)
  if r < 1 / 2 then f
  else if 1 / 2 < r then f + 1
  else if f % 2 = 0 then f else f + 1

/-- SamplingNode: continuous position, parent reference, child set and
accumulated cost.  The tree is an arena (self.nodes is already a Python
list); parent and children are indices into it, and the child set is kept
as a duplicate-free list in insertion order. -/
structure SNode where
  x : ℚ
  y : ℚ
  parent : Option ℕ
  children : List ℕ
  cost : ℚ
deriving Repr, DecidableEq

abbrev RTree := List SNode

def SNode.pos (n : SNode) : ℚ × ℚ := (n.x, n.y)

/-- SamplingNode equality: positions agree within 1e-6 in each coordinate. -/
def snEq (a b : SNode) : Bool :=
  |a.x - b.x| < 1 / 1000000 && |a.y - b.y| < 1 / 1000000

def treeGetD (t : RTree) (i : ℕ) : SNode :=
  (t.get? i).getD ⟨0, 0, none, [], 0⟩

def treeModify (t : RTree) (i : ℕ) (f : SNode → SNode) : RTree :=
  match t.get? i with
  | none => t
  | some n => t.set i (f n)

/-- SamplingNode.add_child: insert into the child set and point the child
parent reference at the new parent. -/
def treeAddChild (t : RTree) (p c : ℕ) : RTree :=
  let t := treeModify t p (fun n =>
    if c ∈ n.children then n else { n with children := n.children ++ [c] })
  treeModify t c (fun n => { n with parent := some p })

/-- SamplingNode.remove_child: drop the child from the set and clear its
parent reference; a no-op when the child is not present. -/
def treeRemoveChild (t : RTree) (p c : ℕ) : RTree :=
  match t.get? p with
  | none => t
  | some n =>
      if c ∈ n.children then
        treeModify (t.set p { n with children := n.children.erase c }) c
          (fun m => { m with parent := none })
      else t

/-- RRT._is_collision_free: dense linear interpolation between the two
endpoints, each sample rounded to a cell and tested for walkability. -/
def rrt_collision_free (g : Grid) (a b : ℚ × ℚ) : Bool :=
  let num : ℕ := max 10 (pyInt (pyDist a b * 2)).toNat
  (List.range (num + 1)).all (fun i =>
    let tt : ℚ := (i : ℚ) / (num : ℚ)
    let x := a.1 + tt * (b.1 - a.1)
    let y := a.2 + tt * (b.2 - a.2)
    g.is_walkable (pyRound x) (pyRound y))

/-- RRT._find_nearest_node: linear scan keeping the first index realizing
the minimum distance to the sample. -/
def rrt_nearest (t : RTree) (sample : ℚ × ℚ) : Option ℕ :=
  match t with
  | [] => none
  | _ =>
      some ((List.range t.length).drop 1 |>.foldl
        (fun best i =>
          if pyDist (treeGetD t i).pos sample
              < pyDist (treeGetD t best).pos sample then i
          else best) 0)

/-- RRT._extend_tree (source lines 130 to 160): step from the nearest node
toward the sample and attach the new node when the segment is collision
free.  (The Python list append of the returned node happens in find_path;
the arena allocation is folded in here so the new index is available.) -/
def rrt_extend (g : Grid) (step : ℚ) (t : RTree) (fromIdx : ℕ)
    (sample : ℚ × ℚ) : RTree × Option ℕ :=
  let fn := treeGetD t fromIdx
  let dx := sample.1 - fn.x
  let dy := sample.2 - fn.y
  let distance := pySqrt (dx * dx + dy * dy)
  if distance = 0 then (t, none)
  else
    let nx := fn.x + dx / distance * step
    let ny := fn.y + dy / distance * step
    if rrt_collision_free g fn.pos (nx, ny) then
      let newIdx := t.length
      let node : SNode :=
        ⟨nx, ny, some fromIdx, [], fn.cost + pyDist fn.pos (nx, ny)⟩
      (treeAddChild (t ++ [node]) fromIdx newIdx, some newIdx)
    else (t, none)

/-- Walk from a tree node to the root collecting positions (node first). -/
def rrtPathToRoot (t : RTree) : ℕ → Option ℕ → List (ℚ × ℚ)
  | 0, _ => []
  | _, none => []
  | fuel + 1, some i =>
      (treeGetD t i).pos :: rrtPathToRoot t fuel (treeGetD t i).parent

/-- The iteration loop of RRT.find_path (source lines 68 to 104).  The
random draws are an explicit input stream: for iteration i, (draws i).1 is
the outcome of the goal-bias coin (random.random() < goal_bias) and
(draws i).2 is the uniformly sampled point used when the coin is False. -/
def rrtLoop (g : Grid) (step : ℚ) (goalPos : ℚ × ℚ)
    (draws : ℕ → Bool × (ℚ × ℚ)) :
    ℕ → ℕ → RTree → Metrics → RTree × Metrics × Option (List (ℚ × ℚ))
  | _, 0, t, m => (t, m, none)
  | i, remaining + 1, t, m =>
      let m := (m.iter).mem t.length
      let sample := if (draws i).1 then goalPos else (draws i).2
      match rrt_nearest t sample with
      | none => rrtLoop g step goalPos draws (i + 1) remaining t m
      | some nearest =>
          match rrt_extend g step t nearest sample with
          | (t, none) => rrtLoop g step goalPos draws (i + 1) remaining t m
          | (t, some newIdx) =>
              let m := m.expand
              let nn := treeGetD t newIdx
              if pyDist nn.pos goalPos ≤ 1 / 2 then
                if rrt_collision_free g nn.pos goalPos then
                  (t, m,
                    some ((rrtPathToRoot t (t.length + 1) (some newIdx)).reverse
                      ++ [goalPos]))
                else rrtLoop g step goalPos draws (i + 1) remaining t m
              else rrtLoop g step goalPos draws (i + 1) remaining t m

/-- RRT.find_path: validation, then the sampling loop.  There is no
start == goal special case in the source; with max_iterations = 0 the loop
body never runs and the call fails immediately.  The algorithm_data
entries are not modelled. -/
def rrt_find_path (step : ℚ) (max_iterations : ℕ)
    (draws : ℕ → Bool × (ℚ × ℚ)) (grid : Grid) (start goal : Pos) : PResult :=
  let m := Metrics.init
  match validate_inputs grid start goal with
  | some msg => create_result m [] false (some msg)
  | none =>
      let root : SNode := ⟨(start.1 : ℚ), (start.2 : ℚ), none, [], 0⟩
      match rrtLoop grid step (posQ goal) draws 0 max_iterations [root] m with
      | (_, m, some path) => create_result m path true none
      | (_, m, none) =>
          create_result m [] false
            (some ("No path found within " ++ toString max_iterations
              ++ " iterations"))

/-- RRTStar._find_nearby_nodes: every tree node within the rewiring radius
of the given node, excluding nodes equal to it under the tolerant
positional node equality, in arena order. -/
def rrtstar_nearby (t : RTree) (i : ℕ) (radius : ℚ) : List ℕ :=
  (List.range t.length).filter (fun j =>
    ¬ snEq (treeGetD t j) (treeGetD t i)
      && pyDist (treeGetD t j).pos (treeGetD t i).pos ≤ radius)

/-- RRTStar._update_descendant_costs: recompute each child cost from its
parent and recurse.  The Python code iterates a child set; the model uses
the insertion-order list.  Fuel bounds the recursion depth; the depth of a
well-formed tree is below the arena size, so a fuel of the arena size is
never exhausted there. -/
def updateDescendants (t : RTree) : ℕ → ℕ → RTree
  | 0, _ => t
  | fuel + 1, i =>
      (treeGetD t i).children.foldl
        (fun acc c =>
          let acc := treeModify acc c (fun n =>
            { n with cost := (treeGetD acc i).cost
                + pyDist (treeGetD acc i).pos n.pos })
          updateDescendants acc fuel c) t

/-- RRTStar._rewire_tree (source lines 254 to 276): re-parent each nearby
node through the new node when that strictly lowers its cost, then refresh
every descendant cost. -/
def rrt_rewire (g : Grid) (ufuel : ℕ) (t : RTree) (newIdx : ℕ)
    (nearby : List ℕ) : RTree :=
  nearby.foldl
    (fun t i =>
      let nb := treeGetD t i
      let nn := treeGetD t newIdx
      if nb.parent.isSome && rrt_collision_free g nn.pos nb.pos then
        let pc := nn.cost + pyDist nn.pos nb.pos
        if pc < nb.cost then
          let t := treeRemoveChild t (nb.parent.getD 0) i
          let t := treeAddChild t newIdx i
          let t := treeModify t i (fun n => { n with cost := pc })
          updateDescendants t ufuel i
        else t
      else t) t

/-- RRTStar._extend_tree (source lines 211 to 242): the plain extension,
then the cheapest-parent search over the neighborhood, then rewiring.  The
comparisons against from_node and best_parent use the tolerant positional
node equality of SamplingNode. -/
def rrtstar_extend (g : Grid) (step radius : ℚ) (ufuel : ℕ) (t : RTree)
    (fromIdx : ℕ) (sample : ℚ × ℚ) : RTree × Option ℕ :=
  match rrt_extend g step t fromIdx sample with
  | (t, none) => (t, none)
  | (t, some newIdx) =>
      let nearby := rrtstar_nearby t newIdx radius
      let nn := treeGetD t newIdx
      let best := nearby.foldl
        (fun (acc : ℕ × ℚ) i =>
          if rrt_collision_free g (treeGetD t i).pos nn.pos then
            let pc := (treeGetD t i).cost + pyDist (treeGetD t i).pos nn.pos
            if pc < acc.2 then (i, pc) else acc
          else acc)
        (fromIdx, nn.cost)
      let t :=
        if ¬ snEq (treeGetD t best.1) (treeGetD t fromIdx) then
          let t := treeRemoveChild t fromIdx newIdx
          let t := treeAddChild t best.1 newIdx
          treeModify t newIdx (fun n => { n with cost := best.2 })
        else t
      (rrt_rewire g ufuel t newIdx nearby, some newIdx)

/-- Parent index of an arena node. -/
def parentOf (t : RTree) (j : ℕ) : Option ℕ :=
  (treeGetD t j).parent

/-- Decidable check of the sampling-tree cost invariant of the spec:
cost(node) = cost(parent) + dist(parent, node) for every node with a
parent. -/
def costInvB (t : RTree) : Bool :=
  (List.range t.length).all (fun j =>
    match parentOf t j with
    | none => true
    | some p =>
        decide ((treeGetD t j).cost
          = (treeGetD t p).cost + pyDist (treeGetD t p).pos (treeGetD t j).pos))

/-- The cost invariant as a proposition. -/
def CostInv (t : RTree) : Prop :=
  ∀ j, j < t.length → ∀ p, parentOf t j = some p →
    (treeGetD t j).cost
      = (treeGetD t p).cost + pyDist (treeGetD t p).pos (treeGetD t j).pos

/-- Decidable check that every stored parent index is inside the arena. -/
def parentBoundB (t : RTree) : Bool :=
  (List.range t.length).all (fun j =>
    match parentOf t j with
    | none => true
    | some p => decide (p < t.length))

def ParentBound (t : RTree) : Prop :=
  ∀ j, j < t.length → ∀ p, parentOf t j = some p → p < t.length

/-- Decidable check that every child entry points back to its parent:
c in children(j) implies parent(c) = j and c is in the arena. -/
def childSoundB (t : RTree) : Bool :=
  (List.range t.length).all (fun j =>
    (treeGetD t j).children.all (fun c =>
      decide (c < t.length) && decide (parentOf t c = some j)))

def ChildSound (t : RTree) : Prop :=
  ∀ j, j < t.length → ∀ c ∈ (treeGetD t j).children,
    c < t.length ∧ parentOf t c = some j

/-- Decidable check that every parented node appears among the children of
its parent. -/
def childCompleteB (t : RTree) : Bool :=
  (List.range t.length).all (fun c =>
    match parentOf t c with
    | none => true
    | some p => decide (p < t.length) && decide (c ∈ (treeGetD t p).children))

def ChildComplete (t : RTree) : Prop :=
  ∀ c, c < t.length → ∀ p, parentOf t c = some p →
    p < t.length ∧ c ∈ (treeGetD t p).children

/-- A depth certificate for acyclicity of the parent forest: parents have
strictly smaller depth, all depths below the bound. -/
def DepthCert (t : RTree) (d : ℕ → ℕ) (D : ℕ) : Prop :=
  (∀ j, j < t.length → ∀ p, parentOf t j = some p → d p < d j)
    ∧ (∀ j, j < t.length → d j < D)

/-- Strict descendants of a node through parent references. -/
inductive Desc (t : RTree) (i : ℕ) : ℕ → Prop where
  | child (j : ℕ) : parentOf t j = some i → Desc t i j
  | step (j k : ℕ) : Desc t i k → parentOf t j = some k → Desc t i j

/-- The 3 by 3 all-open grid used for the tie-break run, with diagonal
movement switched off so that all frontier priorities are small integers. -/
def c3grid : Grid :=
  { mkGrid 3 3 [] with diagonal_movement := false }

/-- The id() model used for concrete runs: node objects are allocated row
by row at grid construction, so allocation order is y * width + x; CPython
ids of consecutively allocated objects follow allocation order.  Any
injective assignment refutes insertion-order tie-breaking equally well. -/
def pidRM (p : Pos) : Int := p.2 * 3 + p.1

/-- A persistent IncrementalPhiStar state after an earlier search toward
goal (2, 0): goal recorded, queue empty, a non-empty closed set. -/
def phiPrevState : PhiState := ⟨some (2, 0), [], [], [(2, 0)], []⟩

/-- A 3 by 1 dynamic grid whose scratch g values are left over from an
earlier search: g(0,0) = 5, g(1,0) = 1, g(2,0) = 0, with no pending
change flags. -/
def dgStale : DynGrid :=
  { toGrid :=
      { mkGrid 3 1 [] with
        g_cost := fun p =>
          if p = ((0 : Int), (0 : Int)) then ((5 : ℚ) : EQ)
          else if p = ((1 : Int), (0 : Int)) then ((1 : ℚ) : EQ)
          else if p = ((2 : Int), (0 : Int)) then ((0 : ℚ) : EQ)
          else ⊤ }
    rhs := fun _ => ⊤
    cost_changed := fun _ => false }

/-- A concrete sampling tree on the x axis: root at 0, a detour node at
x = 10 with cost 10, a node at x = 6 reached through the detour with cost
14, its child at (6, 3) with cost 17, and a direct node at x = 5 with cost
5 through which rewiring will fire. -/
def c8tree : RTree :=
  [ ⟨0, 0, none, [1, 3], 0⟩,
    ⟨10, 0, some 0, [2], 10⟩,
    ⟨6, 0, some 1, [4], 14⟩,
    ⟨5, 0, some 0, [], 5⟩,
    ⟨6, 3, some 2, [], 17⟩ ]

/-- A depth assignment certifying that c8tree is acyclic. -/
def c8depth : ℕ → ℕ := fun i => [0, 1, 2, 1, 3].getD i 0

/-- Cost field of an arena node. -/
def costOf (t : RTree) (j : ℕ) : ℚ := (treeGetD t j).cost

/-- Position of an arena node. -/
def posOf (t : RTree) (j : ℕ) : ℚ × ℚ := (treeGetD t j).pos

/-- Child list of an arena node. -/
def childrenOf (t : RTree) (j : ℕ) : List ℕ := (treeGetD t j).children

/-- Every child list is duplicate-free (the Python children container is a
set). -/
def NodupChildren (t : RTree) : Prop :=
  ∀ j, j < t.length → (childrenOf t j).Nodup

/-- Decidable check of NodupChildren. -/
def nodupChildrenB (t : RTree) : Bool :=
  (List.range t.length).all (fun j => decide (childrenOf t j).Nodup)

/-- Decidable check of a DepthCert given as a list of depths. -/
def depthCertB (t : RTree) (dl : List ℕ) (D : ℕ) : Bool :=
  (List.range t.length).all (fun j =>
    (match parentOf t j with
     | none => true
     | some p => decide (dl.getD p 0 < dl.getD j 0))
    && decide (dl.getD j 0 < D))

/-- Two arenas agree on everything except possibly the stored costs. -/
def treeStructEq (s r : RTree) : Prop :=
  r.length = s.length
    ∧ ∀ j, parentOf r j = parentOf s j ∧ childrenOf r j = childrenOf s j
        ∧ posOf r j = posOf s j

/-- Invariant of the child fold inside _update_descendant_costs: structure
untouched, costs outside the subtree of i untouched, and the cost equation
restored on the subtree of every already processed child. -/
def UDInv (s : RTree) (i : ℕ) (cs1 : List ℕ) (acc : RTree) : Prop :=
  treeStructEq s acc
    ∧ (∀ j, ¬ Desc s i j → costOf acc j = costOf s j)
    ∧ (∀ c1 ∈ cs1, ∀ j, (j = c1 ∨ Desc s c1 j) → ∀ q, parentOf s j = some q →
        costOf acc j = costOf acc q + pyDist (posOf s q) (posOf s j))

/-- The tree state inside the firing branch of RRTStar._rewire_tree, just
before the descendant refresh: node i detached from old parent p, attached
under newIdx, its cost overwritten. -/
def rewiredTree (t : RTree) (p newIdx i : ℕ) (pc : ℚ) : RTree :=
  treeModify (treeAddChild (treeRemoveChild t p i) newIdx i) i
    (fun n => { n with cost := pc })

lemma terrain_costs_nonneg (s : String) : 0 ≤ terrain_costs s := by
  unfold terrain_costs
  split
  · rw [← WithTop.coe_zero, WithTop.coe_le_coe]; norm_num
  split
  · rw [← WithTop.coe_zero, WithTop.coe_le_coe]; norm_num
  split
  · rw [← WithTop.coe_zero, WithTop.coe_le_coe]; norm_num
  split
  · rw [← WithTop.coe_zero, WithTop.coe_le_coe]; norm_num
  split
  · rw [← WithTop.coe_zero, WithTop.coe_le_coe]; norm_num
  split
  · exact le_top
  · rw [← WithTop.coe_zero, WithTop.coe_le_coe]; norm_num

lemma get_terrain_cost_nonneg (g : WeightedGrid) (x y : Int) :
    0 ≤ g.get_terrain_cost x y := by
  unfold WeightedGrid.get_terrain_cost
  split
  · exact terrain_costs_nonneg _
  · exact le_top

lemma EQ.half_nonneg {x : EQ} (h : 0 ≤ x) : 0 ≤ x.half := by
  match x with
  | ⊤ => exact le_top
  | (q : ℚ) =>
      rw [← WithTop.coe_zero, WithTop.coe_le_coe] at h
      show (0 : EQ) ≤ ((q / 2 : ℚ) : EQ)
      rw [← WithTop.coe_zero, WithTop.coe_le_coe]
      positivity

lemma EQ.mul_nonneg_of_pos {c : ℚ} {x : EQ} (hc : 0 < c) (hx : 0 ≤ x) :
    0 ≤ (c : EQ) * x := by
  match x with
  | ⊤ =>
      rw [WithTop.mul_top (by exact_mod_cast hc.ne.symm)]
      exact le_top
  | (q : ℚ) =>
      rw [← WithTop.coe_zero, WithTop.coe_le_coe] at hx
      rw [← WithTop.coe_mul, ← WithTop.coe_zero, WithTop.coe_le_coe]
      exact mul_nonneg hc.le hx

lemma natAbsSubComm (a b : Int) : (a - b).natAbs = (b - a).natAbs := by
  rw [← Int.natAbs_neg, neg_sub]

lemma grid_cost_symm (g : Grid) (a b : Pos) :
    g.get_movement_cost a b = g.get_movement_cost b a := by
  unfold Grid.get_movement_cost
  rw [natAbsSubComm b.1 a.1, natAbsSubComm b.2 a.2]

lemma grid_cost_nonneg (g : Grid) (a b : Pos)
    (hs : 0 ≤ g.straight_cost) (hd : 0 ≤ g.diagonal_cost) :
    0 ≤ g.get_movement_cost a b := by
  unfold Grid.get_movement_cost
  split
  · rw [← WithTop.coe_zero, WithTop.coe_le_coe]; exact hd
  split
  · rw [← WithTop.coe_zero, WithTop.coe_le_coe]; exact hs
  · exact le_top

lemma grid_cost_nonadjacent (g : Grid) (a b : Pos)
    (h : adjacentPos a b = false) : g.get_movement_cost a b = ⊤ := by
  simp only [adjacentPos, Bool.or_eq_false_iff, Bool.and_eq_false_iff,
    decide_eq_false_iff_not] at h
  unfold Grid.get_movement_cost
  split
  · next hc =>
      exfalso
      simp only [Bool.and_eq_true, decide_eq_true_eq] at hc
      omega
  split
  · next hc =>
      exfalso
      simp only [Bool.or_eq_true, Bool.and_eq_true, decide_eq_true_eq] at hc
      omega
  · rfl

/-- C7: on every grid variant the movement-cost function is symmetric and,
for the positive per-step costs the constructors install, non-negative;
non-adjacent pairs always cost float(inf).  The plain conjunct also covers
AngleGrid and DynamicGrid, which inherit get_movement_cost unchanged;
the second conjunct is the terrain-weighted override. -/
theorem C7_edge_cost_symmetric_nonneg_inf :
    (∀ (g : Grid) (a b : Pos),
        g.get_movement_cost a b = g.get_movement_cost b a
        ∧ (0 ≤ g.straight_cost → 0 ≤ g.diagonal_cost →
            0 ≤ g.get_movement_cost a b)
        ∧ (adjacentPos a b = false → g.get_movement_cost a b = ⊤))
    ∧ (∀ (g : WeightedGrid) (a b : Pos),
        g.get_movement_cost a b = g.get_movement_cost b a
        ∧ (0 < g.straight_cost → 0 < g.diagonal_cost →
            0 ≤ g.get_movement_cost a b)
        ∧ (adjacentPos a b = false → g.get_movement_cost a b = ⊤)) := by
  constructor
  · intro g a b
    exact ⟨grid_cost_symm g a b, grid_cost_nonneg g a b,
      grid_cost_nonadjacent g a b⟩
  · intro g a b
    refine ⟨?_, ?_, ?_⟩
    · unfold WeightedGrid.get_movement_cost
      rw [grid_cost_symm]
      cases g.toGrid.get_movement_cost b a with
      | none => rfl
      | some c =>
          simp only
          rw [add_comm (g.get_terrain_cost a.1 a.2)]
    · intro hs hd
      unfold WeightedGrid.get_movement_cost
      cases hbase : g.toGrid.get_movement_cost a b with
      | none => exact le_top
      | some c =>
          have hc : 0 < c := by
            unfold Grid.get_movement_cost at hbase
            split at hbase
            · exact (WithTop.coe_inj.mp hbase) ▸ hd
            · split at hbase
              · exact (WithTop.coe_inj.mp hbase) ▸ hs
              · exact absurd hbase (by simp)
          exact EQ.mul_nonneg_of_pos hc
            (EQ.half_nonneg (add_nonneg (get_terrain_cost_nonneg g a.1 a.2)
              (get_terrain_cost_nonneg g b.1 b.2)))
    · intro h
      unfold WeightedGrid.get_movement_cost
      rw [grid_cost_nonadjacent g.toGrid a b h]

/-- Witness for C7: concrete evaluation on a freshly constructed 3 by 3
grid (costs 1 and the double sqrt 2) and on a weighted grid over it. -/
theorem C7_edge_cost_witness :
    (mkGrid 3 3 []).get_movement_cost (0, 0) (1, 1) =
        (mkGrid 3 3 []).get_movement_cost (1, 1) (0, 0)
      ∧ 0 ≤ (mkGrid 3 3 []).get_movement_cost (0, 0) (1, 1)
      ∧ (mkGrid 3 3 []).get_movement_cost (0, 0) (2, 2) = ⊤
      ∧ 0 ≤ (WeightedGrid.mk (mkGrid 3 3 [])
            (fun _ => "mud")).get_movement_cost (0, 0) (1, 0) := by
  obtain ⟨hg, hw⟩ := C7_edge_cost_symmetric_nonneg_inf
  refine ⟨(hg (mkGrid 3 3 []) (0, 0) (1, 1)).1,
    (hg (mkGrid 3 3 []) (0, 0) (1, 1)).2.1 (by norm_num [mkGrid])
      (by norm_num [mkGrid, sqrt2F]),
    (hg (mkGrid 3 3 []) (0, 0) (2, 2)).2.2 (by decide),
    (hw (WeightedGrid.mk (mkGrid 3 3 []) (fun _ => "mud")) (0, 0) (1, 0)).2.1
      (by norm_num [mkGrid]) (by norm_num [mkGrid, sqrt2F])⟩

lemma calc_eq_spec (path : List (ℚ × ℚ)) :
    calculate_path_length path = specEuclideanLength path := by
  induction path with
  | nil => rfl
  | cons a rest ih =>
      cases rest with
      | nil => rfl
      | cons b r =>
          show pyDist a b + calculate_path_length (b :: r) = _
          rw [ih]
          rfl

lemma create_result_fields (m : Metrics) (path : List (ℚ × ℚ)) (found : Bool)
    (err : Option String) :
    (create_result m path found err).path_cost = 0
      ∧ (create_result m path found err).path_length = specEuclideanLength path
      ∧ (create_result m path found err).found = found
      ∧ (create_result m path found err).path = path
      ∧ (create_result m path found err).error_message = err
      ∧ (create_result m path found err).nodes_expanded = m.expanded := by
  refine ⟨rfl, ?_, rfl, rfl, rfl, rfl⟩
  show (if path.isEmpty then 0 else calculate_path_length path) = _
  cases path with
  | nil => rfl
  | cons a r => simp [List.isEmpty, calc_eq_spec]

lemma phi_search_path_cost (dg : DynGrid) (st : PhiState) (s t : Pos)
    (rf : ℕ) (m : Metrics) (r : PResult)
    (h : phi_search dg st s t rf m = Except.ok r) : r.path_cost = 0 := by
  unfold phi_search at h
  split at h
  · exact absurd h (by simp)
  · split at h <;>
      · simp only [Except.ok.injEq] at h
        rw [← h]
        rfl

/-- C10: on every modelled engine the returned path_cost is the constructor
default 0 — no engine assigns it — and the only cost computed on a result
is path_length, the sum of Euclidean distances between consecutive
waypoints (specEuclideanLength is that spec-side sum). -/
theorem C10_path_cost_zero_and_length :
    (∀ (m : Metrics) (path : List (ℚ × ℚ)) (found : Bool) (err : Option String),
        (create_result m path found err).path_cost = 0
        ∧ (create_result m path found err).path_length = specEuclideanLength path)
    ∧ (∀ ht w pid fuel g s t, (astar_find_path ht w pid fuel g s t).path_cost = 0)
    ∧ (∀ pid fuel g s t, (dijkstra_find_path pid fuel g s t).1.path_cost = 0)
    ∧ (∀ ht mi sf g s t, (ida_find_path ht mi sf g s t).1.path_cost = 0)
    ∧ (∀ step mi draws g s t, (rrt_find_path step mi draws g s t).path_cost = 0)
    ∧ (∀ ht eps pid rf st dg s t r ps dg2,
        phi_find_path ht eps pid rf st dg s t = Except.ok (r, ps, dg2) →
        r.path_cost = 0) := by
  refine ⟨fun m path found err =>
      ⟨(create_result_fields m path found err).1,
        (create_result_fields m path found err).2.1⟩, ?_, ?_, ?_, ?_, ?_⟩
  · intro ht w pid fuel g s t
    unfold astar_find_path
    split
    · rfl
    · dsimp only
      split
      · rfl
      · split
        · rfl
        · split <;> rfl
  · intro pid fuel g s t
    unfold dijkstra_find_path
    split
    · rfl
    · dsimp only
      split
      · rfl
      · split
        · rfl
        · split <;> rfl
  · intro ht mi sf g s t
    unfold ida_find_path
    split
    · rfl
    · dsimp only
      split
      · rfl
      · split
        · rfl
        · split <;> rfl
  · intro step mi draws g s t
    unfold rrt_find_path
    split
    · rfl
    · dsimp only
      split <;> rfl
  · intro ht eps pid rf st dg s t r ps dg2 h
    unfold phi_find_path at h
    split at h
    · simp only [Except.ok.injEq, Prod.mk.injEq] at h
      rw [← h.1]
      rfl
    · dsimp only at h
      split at h
      · simp only [Except.ok.injEq, Prod.mk.injEq] at h
        rw [← h.1]
        rfl
      · split at h
        · simp only [Except.ok.injEq, Prod.mk.injEq] at h
          rw [← h.1]
          rfl
        · split at h
          · exact absurd h (by simp)
          · next r2 heq2 =>
              simp only [Except.ok.injEq, Prod.mk.injEq] at h
              rw [← h.1]
              exact phi_search_path_cost _ _ _ _ _ _ r2 heq2

lemma validate_self (g : Grid) (p : Pos) (h : g.is_walkable p.1 p.2 = true) :
    validate_inputs g p p = none := by
  have hv : g.is_valid_position p.1 p.2 = true := by
    simp only [Grid.is_walkable, Bool.and_eq_true] at h
    exact h.1
  unfold validate_inputs
  simp [hv, h]

lemma reset_is_valid (g : Grid) (x y : Int) :
    (g.reset_pathfinding_data).is_valid_position x y = g.is_valid_position x y :=
  rfl

/-- C2 amended: on the grid engines, which all have the explicit
start == goal early return, a search from a valid walkable cell to itself
returns the fresh-counter result with found = true and path [p]; that
result has cost 0 (both path_cost and path_length) and zero expanded
nodes.  The sampling engines have no such early return (see the
counterexample). -/
theorem C2_amended_start_eq_goal :
    ∀ (g : Grid) (p : Pos), g.is_walkable p.1 p.2 = true →
      (∀ ht w pid fuel,
          astar_find_path ht w pid fuel g p p
            = create_result Metrics.init [posQ p] true none)
      ∧ (∀ pid fuel,
          (dijkstra_find_path pid fuel g p p).1
            = create_result Metrics.init [posQ p] true none)
      ∧ (∀ ht mi sf,
          (ida_find_path ht mi sf g p p).1
            = create_result Metrics.init [posQ p] true none)
      ∧ (create_result Metrics.init [posQ p] true none).found = true
      ∧ (create_result Metrics.init [posQ p] true none).path = [posQ p]
      ∧ (create_result Metrics.init [posQ p] true none).path_cost = 0
      ∧ (create_result Metrics.init [posQ p] true none).path_length = 0
      ∧ (create_result Metrics.init [posQ p] true none).nodes_expanded = 0 := by
  intro g p h
  have hv : g.is_valid_position p.1 p.2 = true := by
    have h2 := h
    simp only [Grid.is_walkable, Bool.and_eq_true] at h2
    exact h2.1
  refine ⟨?_, ?_, ?_, rfl, rfl, rfl, rfl, rfl⟩
  · intro ht w pid fuel
    unfold astar_find_path
    rw [validate_self g p h]
    dsimp only
    simp [reset_is_valid, hv]
  · intro pid fuel
    unfold dijkstra_find_path
    rw [validate_self g p h]
    dsimp only
    simp [reset_is_valid, hv]
  · intro ht mi sf
    unfold ida_find_path
    rw [validate_self g p h]
    dsimp only
    simp [reset_is_valid, hv]

/-- Witness for C2 amended: the concrete start == goal call on a fresh
2 by 2 grid. -/
theorem C2_amended_witness :
    (astar_find_path .euclidean 1 (fun _ => 0) 5 (mkGrid 2 2 []) (0, 0) (0, 0)).found
        = true
      ∧ (astar_find_path .euclidean 1 (fun _ => 0) 5 (mkGrid 2 2 []) (0, 0)
          (0, 0)).path = [((0 : ℚ), (0 : ℚ))]
      ∧ (astar_find_path .euclidean 1 (fun _ => 0) 5 (mkGrid 2 2 []) (0, 0)
          (0, 0)).nodes_expanded = 0 := by
  have h := C2_amended_start_eq_goal (mkGrid 2 2 []) (0, 0) (by decide)
  rw [h.1 .euclidean 1 (fun _ => 0) 5]
  exact ⟨rfl, rfl, rfl⟩

/-- Counterexample to C2 as stated: RRT has no start == goal special case,
so with the iteration budget 0 — a configuration the spec itself lists in
its concrete scenarios — the call on start = goal = (0,0) of an open grid
returns found = false with an empty path instead of found = true with
path [start]. -/
theorem C2_counterexample_rrt_start_goal :
    (rrt_find_path 1 0 (fun _ => (true, (0, 0))) (mkGrid 2 2 []) (0, 0)
        (0, 0)).found = false
      ∧ (rrt_find_path 1 0 (fun _ => (true, (0, 0))) (mkGrid 2 2 []) (0, 0)
          (0, 0)).path = []
      ∧ (rrt_find_path 1 0 (fun _ => (true, (0, 0))) (mkGrid 2 2 []) (0, 0)
          (0, 0)).error_message = some "No path found within 0 iterations" :=
  ⟨rfl, rfl, rfl⟩

/-- C9 amended: an in-bounds unwalkable start or goal makes validate_inputs
return the message "Start position (x, y) is not walkable" (or the Goal
variant), and every modelled engine built on validate_inputs then returns
the fresh-counter failure result carrying exactly that message — hence
found = false and nodes_expanded = 0.  The reason string is the f-string
message, not the bare taxonomy label (see the counterexample). -/
theorem C9_amended_unwalkable_reason :
    ∀ (g : Grid) (s t : Pos),
      g.is_valid_position s.1 s.2 = true → g.is_valid_position t.1 t.2 = true →
      (g.is_walkable s.1 s.2 = false →
        validate_inputs g s t
          = some ("Start position " ++ posStr s ++ " is not walkable"))
      ∧ (g.is_walkable s.1 s.2 = true → g.is_walkable t.1 t.2 = false →
        validate_inputs g s t
          = some ("Goal position " ++ posStr t ++ " is not walkable"))
      ∧ (∀ msg, validate_inputs g s t = some msg →
          (∀ ht w pid fuel, astar_find_path ht w pid fuel g s t
              = create_result Metrics.init [] false (some msg))
          ∧ (∀ pid fuel, (dijkstra_find_path pid fuel g s t).1
              = create_result Metrics.init [] false (some msg))
          ∧ (∀ ht mi sf, (ida_find_path ht mi sf g s t).1
              = create_result Metrics.init [] false (some msg))
          ∧ (∀ step mi draws, rrt_find_path step mi draws g s t
              = create_result Metrics.init [] false (some msg))
          ∧ (∀ ht eps pid rf ps (dg : DynGrid), dg.toGrid = g →
              phi_find_path ht eps pid rf ps dg s t
                = Except.ok
                    (create_result Metrics.init [] false (some msg), ps, dg))
          ∧ (create_result Metrics.init [] false (some msg)).found = false
          ∧ (create_result Metrics.init [] false (some msg)).nodes_expanded
              = 0) := by
  intro g s t hsv htv
  refine ⟨?_, ?_, ?_⟩
  · intro hsw
    unfold validate_inputs
    simp [hsv, htv, hsw]
  · intro hsw htw
    unfold validate_inputs
    simp [hsv, htv, hsw, htw]
  · intro msg hmsg
    refine ⟨?_, ?_, ?_, ?_, ?_, rfl, rfl⟩
    · intro ht w pid fuel
      unfold astar_find_path
      rw [hmsg]
    · intro pid fuel
      unfold dijkstra_find_path
      rw [hmsg]
    · intro ht mi sf
      unfold ida_find_path
      rw [hmsg]
    · intro step mi draws
      unfold rrt_find_path
      rw [hmsg]
    · intro ht eps pid rf ps dg hdg
      unfold phi_find_path
      rw [hdg, hmsg]

/-- Witness for C9 amended: grid with cell (0, 1) blocked, start there. -/
theorem C9_amended_witness :
    validate_inputs (mkGrid 2 2 [((0 : Int), (1 : Int))]) (0, 1) (0, 0)
        = some "Start position (0, 1) is not walkable"
      ∧ (astar_find_path .euclidean 1 (fun _ => 0) 5
          (mkGrid 2 2 [((0 : Int), (1 : Int))]) (0, 1) (0, 0)).nodes_expanded
          = 0 := by
  have h := C9_amended_unwalkable_reason (mkGrid 2 2 [((0 : Int), (1 : Int))])
    (0, 1) (0, 0) (by decide) (by decide)
  have h1 := h.1 (by decide)
  refine ⟨h1, ?_⟩
  rw [(h.2.2 _ h1).1 .euclidean 1 (fun _ => 0) 5]
  rfl

/-- Counterexample to C9 as stated: the failure reason delivered for an
in-bounds unwalkable start is the validate_inputs f-string, not the bare
string "Unwalkable" the claim names. -/
theorem C9_counterexample_reason :
    (astar_find_path .euclidean 1 (fun _ => 0) 5
        (mkGrid 2 2 [((0 : Int), (1 : Int))]) (0, 1) (0, 0)).found = false
      ∧ (astar_find_path .euclidean 1 (fun _ => 0) 5
          (mkGrid 2 2 [((0 : Int), (1 : Int))]) (0, 1) (0, 0)).nodes_expanded
          = 0
      ∧ (astar_find_path .euclidean 1 (fun _ => 0) 5
          (mkGrid 2 2 [((0 : Int), (1 : Int))]) (0, 1) (0, 0)).error_message
          ≠ some "Unwalkable"
      ∧ (astar_find_path .euclidean 1 (fun _ => 0) 5
          (mkGrid 2 2 [((0 : Int), (1 : Int))]) (0, 1) (0, 0)).error_message
          = some "Start position (0, 1) is not walkable" := by
  refine ⟨rfl, rfl, by decide, rfl⟩

lemma append_ne_empty (p r : String) (hp : p ≠ "") : p ++ r ≠ "" := by
  intro h
  apply hp
  have hd := congrArg String.data h
  simp only [String.data_append] at hd
  have h0 : p.data = [] := (List.append_eq_nil.mp hd).1
  cases p
  simp_all

lemma validate_msg_ne_empty (g : Grid) (s t : Pos) (msg : String)
    (h : validate_inputs g s t = some msg) : msg ≠ "" := by
  unfold validate_inputs at h
  split at h
  · cases Option.some.inj h
    exact append_ne_empty _ _ (append_ne_empty _ _ (by decide))
  · split at h
    · cases Option.some.inj h
      exact append_ne_empty _ _ (append_ne_empty _ _ (by decide))
    · split at h
      · cases Option.some.inj h
        exact append_ne_empty _ _ (append_ne_empty _ _ (by decide))
      · split at h
        · cases Option.some.inj h
          exact append_ne_empty _ _ (append_ne_empty _ _ (by decide))
        · exact absurd h (by simp)

lemma phi_search_contract (dg : DynGrid) (st : PhiState) (s t : Pos)
    (rf : ℕ) (m : Metrics) (r : PResult)
    (h : phi_search dg st s t rf m = Except.ok r) (hf : r.found = false) :
    r.path = [] ∧ ∃ msg, r.error_message = some msg ∧ msg ≠ "" := by
  unfold phi_search at h
  split at h
  · exact absurd h (by simp)
  · split at h
    · simp only [Except.ok.injEq] at h
      rw [← h]
      exact ⟨rfl, "No path exists", rfl, by decide⟩
    · simp only [Except.ok.injEq] at h
      rw [← h] at hf
      exact absurd hf (by simp [create_result])

/-- C1 amended: every modelled engine built on the PathfindingAlgorithm
result helper (A star together with its packaged WeightedAStar subclass,
Dijkstra, IDA star, RRT, Incremental Phi star) returns, on any failed
search, a PathfindingResult with found = false, an empty path and a
non-empty reason string.  The standalone classical/weighted_astar.py
engine is the exception the counterexample exhibits: it returns the Python
value None on failure, a bare list on success, and performs no validation
at all. -/
theorem C1_amended_failure_contract :
    (∀ ht w pid fuel g s t,
        (astar_find_path ht w pid fuel g s t).found = false →
          (astar_find_path ht w pid fuel g s t).path = []
          ∧ ∃ msg, (astar_find_path ht w pid fuel g s t).error_message
                = some msg ∧ msg ≠ "")
    ∧ (∀ pid fuel g s t,
        (dijkstra_find_path pid fuel g s t).1.found = false →
          (dijkstra_find_path pid fuel g s t).1.path = []
          ∧ ∃ msg, (dijkstra_find_path pid fuel g s t).1.error_message
                = some msg ∧ msg ≠ "")
    ∧ (∀ ht mi sf g s t,
        (ida_find_path ht mi sf g s t).1.found = false →
          (ida_find_path ht mi sf g s t).1.path = []
          ∧ ∃ msg, (ida_find_path ht mi sf g s t).1.error_message
                = some msg ∧ msg ≠ "")
    ∧ (∀ step mi draws g s t,
        (rrt_find_path step mi draws g s t).found = false →
          (rrt_find_path step mi draws g s t).path = []
          ∧ ∃ msg, (rrt_find_path step mi draws g s t).error_message
                = some msg ∧ msg ≠ "")
    ∧ (∀ ht eps pid rf ps dg s t r ps2 dg2,
        phi_find_path ht eps pid rf ps dg s t = Except.ok (r, ps2, dg2) →
        r.found = false →
          r.path = [] ∧ ∃ msg, r.error_message = some msg ∧ msg ≠ "") := by
  refine ⟨?_, ?_, ?_, ?_, ?_⟩
  · intro ht w pid fuel g s t hf
    unfold astar_find_path at hf ⊢
    split
    · next msg hv =>
        rw [hv] at hf
        exact ⟨rfl, msg, rfl, validate_msg_ne_empty g s t msg hv⟩
    · next hv =>
        rw [hv] at hf
        dsimp only at hf ⊢
        split
        · exact ⟨rfl, _, rfl, by decide⟩
        · split
          · exact absurd hf (by simp_all [create_result])
          · split
            · exact absurd hf (by simp_all [create_result])
            · exact ⟨rfl, _, rfl, by decide⟩
  · intro pid fuel g s t hf
    unfold dijkstra_find_path at hf ⊢
    split
    · next msg hv =>
        rw [hv] at hf
        exact ⟨rfl, msg, rfl, validate_msg_ne_empty g s t msg hv⟩
    · next hv =>
        rw [hv] at hf
        dsimp only at hf ⊢
        split
        · exact ⟨rfl, _, rfl, by decide⟩
        · split
          · exact absurd hf (by simp_all [create_result])
          · split
            · exact absurd hf (by simp_all [create_result])
            · exact ⟨rfl, _, rfl, by decide⟩
  · intro ht mi sf g s t hf
    unfold ida_find_path at hf ⊢
    split
    · next msg hv =>
        rw [hv] at hf
        exact ⟨rfl, msg, rfl, validate_msg_ne_empty g s t msg hv⟩
    · next hv =>
        rw [hv] at hf
        dsimp only at hf ⊢
        split
        · exact ⟨rfl, _, rfl, by decide⟩
        · split
          · exact absurd hf (by simp_all [create_result])
          · split
            · exact absurd hf (by simp_all [create_result])
            · exact ⟨rfl, _, rfl, by decide⟩
            · exact ⟨rfl, _, rfl,
                append_ne_empty _ _ (append_ne_empty _ _ (by decide))⟩
  · intro step mi draws g s t hf
    unfold rrt_find_path at hf ⊢
    split
    · next msg hv =>
        rw [hv] at hf
        exact ⟨rfl, msg, rfl, validate_msg_ne_empty g s t msg hv⟩
    · next hv =>
        rw [hv] at hf
        dsimp only at hf ⊢
        split
        · exact absurd hf (by simp_all [create_result])
        · exact ⟨rfl, _, rfl,
            append_ne_empty _ _ (append_ne_empty _ _ (by decide))⟩
  · intro ht eps pid rf ps dg s t r ps2 dg2 h hf
    unfold phi_find_path at h
    split at h
    · next msg hv =>
        simp only [Except.ok.injEq, Prod.mk.injEq] at h
        rw [← h.1] at hf ⊢
        exact ⟨rfl, msg, rfl, validate_msg_ne_empty dg.toGrid s t msg hv⟩
    · dsimp only at h
      split at h
      · simp only [Except.ok.injEq, Prod.mk.injEq] at h
        rw [← h.1] at hf ⊢
        exact ⟨rfl, _, rfl, by decide⟩
      · split at h
        · simp only [Except.ok.injEq, Prod.mk.injEq] at h
          rw [← h.1] at hf
          exact absurd hf (by simp [create_result])
        · split at h
          · exact absurd h (by simp)
          · next r2 heq2 =>
              simp only [Except.ok.injEq, Prod.mk.injEq] at h
              rw [← h.1] at hf ⊢
              exact phi_search_contract _ _ _ _ _ _ r2 heq2 hf

/-- Counterexample to C1 as stated: the standalone WeightedAStar engine in
classical/weighted_astar.py, registered by the web layer, is called with an
out-of-bounds start (the InvalidPosition failure class of the claim) and
returns the Python value None — there is no PathfindingResult, no found
flag and no reason string.  (On in-bounds failing searches it instead
raises AttributeError, since it queries grid.is_obstacle, which no grid
class defines.) -/
theorem C1_counterexample_standalone_wa :
    wa_find_path (3 / 2) .euclidean 10 (mkGrid 2 2 []) (-5, -5) (0, 0)
      = Except.ok none := by
  rfl

/-- Witness for C1 amended: concrete failed search (unwalkable goal). -/
theorem C1_amended_witness :
    (astar_find_path .euclidean 1 (fun _ => 0) 5
        (mkGrid 2 2 [((0 : Int), (1 : Int))]) (0, 0) (0, 1)).path = []
      ∧ ∃ msg,
        (astar_find_path .euclidean 1 (fun _ => 0) 5
            (mkGrid 2 2 [((0 : Int), (1 : Int))]) (0, 0) (0, 1)).error_message
          = some msg ∧ msg ≠ "" :=
  C1_amended_failure_contract.1 .euclidean 1 (fun _ => 0) 5
    (mkGrid 2 2 [((0 : Int), (1 : Int))]) (0, 0) (0, 1) (by decide)

/-- Witness for C10: the Incremental Phi star conjunct applied to a
concrete successful start == goal call. -/
theorem C10_witness :
    (create_result Metrics.init [posQ ((0 : Int), (0 : Int))] true
        none).path_cost = 0 :=
  C10_path_cost_zero_and_length.2.2.2.2.2 .euclidean (5 / 2) (fun _ => 0) 5
    phiPrevState dgStale (0, 0) (0, 0) _ _ _ rfl

lemma entryLT_irrefl (e : HeapEntry) : entryLT e e = false := by
  simp [entryLT]

lemma entryLT_asymm {a b : HeapEntry} (h : entryLT a b = true) :
    entryLT b a = false := by
  simp only [entryLT, Bool.or_eq_true, Bool.and_eq_true, decide_eq_true_eq] at h
  simp only [entryLT, Bool.or_eq_false_iff, Bool.and_eq_false_iff,
    decide_eq_false_iff_not]
  rcases h with h | ⟨he, hi⟩
  · exact ⟨lt_asymm h, Or.inl (ne_of_gt h)⟩
  · exact ⟨by rw [he]; exact lt_irrefl _, Or.inr (by omega)⟩

lemma entryLT_bridge {f x m : HeapEntry} (hfx : entryLT f x = true)
    (hfm : entryLT f m = false) : entryLT m x = true := by
  simp only [entryLT, Bool.or_eq_true, Bool.and_eq_true, decide_eq_true_eq]
    at hfx ⊢
  simp only [entryLT, Bool.or_eq_false_iff, Bool.and_eq_false_iff,
    decide_eq_false_iff_not] at hfm
  obtain ⟨hm1, hm2⟩ := hfm
  have hmf : m.1 < f.1 ∨ (m.1 = f.1 ∧ m.2.1 ≤ f.2.1) := by
    rcases lt_or_eq_of_le (not_lt.mp hm1) with h | h
    · exact Or.inl h
    · refine Or.inr ⟨h, ?_⟩
      rcases hm2 with h2 | h2
      · exact absurd h.symm h2

      · omega
  rcases hfx with hx | ⟨hx1, hx2⟩
  · rcases hmf with h | ⟨h1, _⟩
    · exact Or.inl (lt_trans h hx)
    · exact Or.inl (h1 ▸ hx)
  · rcases hmf with h | ⟨h1, h2⟩
    · exact Or.inl (hx1 ▸ h)
    · exact Or.inr ⟨h1.trans hx1, by omega⟩

lemma popMinBy_eq_none {lt : α → α → Bool} {l : List α} :
    popMinBy lt l = none ↔ l = [] := by
  cases l with
  | nil => simp [popMinBy]
  | cons x xs =>
      simp only [popMinBy]
      rcases hxs : popMinBy lt xs with _ | ⟨m, r⟩
      · simp
      · by_cases hlt : lt m x = true <;> simp [hlt]

/-- C3 amended: the classical engines push heap entries (priority, id(node),
node); heapq dequeues the entry minimizing the (priority, id) pair
lexicographically, so ties on equal priority are broken by the id of the
node object — an allocation artifact — and not by insertion order into the
frontier.  This theorem states the actual discipline: the dequeued entry is
minimal, with no entry in the frontier strictly below it in (priority, id)
order. -/
theorem C3_amended_pop_is_min :
    ∀ (l : List HeapEntry) (e : HeapEntry) (r : List HeapEntry),
      popMinBy entryLT l = some (e, r) →
        e ∈ l ∧ ∀ f ∈ l, entryLT f e = false := by
  intro l
  induction l with
  | nil => intro e r h; cases h
  | cons x xs ih =>
      intro e r h
      unfold popMinBy at h
      rcases hxs : popMinBy entryLT xs with _ | ⟨m, rest⟩
      · rw [hxs] at h
        dsimp only at h
        simp only [Option.some.injEq, Prod.mk.injEq] at h
        obtain ⟨rfl, rfl⟩ := h
        have hnil : xs = [] := popMinBy_eq_none.mp hxs
        subst hnil
        refine ⟨List.mem_cons_self _ _, ?_⟩
        intro f hf
        rcases List.mem_cons.mp hf with rfl | hf'
        · exact entryLT_irrefl f
        · cases hf'
      · rw [hxs] at h
        dsimp only at h
        by_cases hlt : entryLT m x = true
        · rw [if_pos hlt] at h
          simp only [Option.some.injEq, Prod.mk.injEq] at h
          obtain ⟨rfl, rfl⟩ := h
          obtain ⟨hmem, hall⟩ := ih m rest hxs
          refine ⟨List.mem_cons_of_mem _ hmem, ?_⟩
          intro f hf
          rcases List.mem_cons.mp hf with rfl | hf'
          · exact entryLT_asymm hlt
          · exact hall f hf'
        · rw [if_neg hlt] at h
          simp only [Option.some.injEq, Prod.mk.injEq] at h
          obtain ⟨rfl, rfl⟩ := h
          refine ⟨List.mem_cons_self _ _, ?_⟩
          intro f hf
          rcases List.mem_cons.mp hf with rfl | hf'
          · exact entryLT_irrefl f
          · by_cases hfx : entryLT f x = true
            · exact absurd
                (entryLT_bridge hfx ((ih m rest hxs).2 f hf')) hlt
            · simpa using hfx

/-- Witness for C3 amended: the dequeue on a two-entry frontier with equal
priorities. -/
theorem C3_amended_pop_witness :
    ((((1 : ℚ) : EQ), (1 : Int), ((1 : Int), (0 : Int)))
        ∈ [(((1 : ℚ) : EQ), (7 : Int), ((1 : Int), (2 : Int))),
           (((1 : ℚ) : EQ), (1 : Int), ((1 : Int), (0 : Int)))])
      ∧ ∀ f ∈ [(((1 : ℚ) : EQ), (7 : Int), ((1 : Int), (2 : Int))),
           (((1 : ℚ) : EQ), (1 : Int), ((1 : Int), (0 : Int)))],
          entryLT f (((1 : ℚ) : EQ), (1 : Int), ((1 : Int), (0 : Int)))
            = false :=
  C3_amended_pop_is_min _ _
    [(((1 : ℚ) : EQ), (7 : Int), ((1 : Int), (2 : Int)))] (by decide)

set_option maxRecDepth 100000 in
/-- Counterexample to C3 as stated: a Dijkstra run on an open 3 by 3 grid
with 4-connected moves, start (1, 1), goal (2, 2), ids following the
row-major allocation order of the node objects.  The frontier entry for
(1, 2) (priority 1, id 7) is pushed at index 1, before the entry for
(1, 0) (priority 1, id 1) at index 3, yet (1, 0) is dequeued before (1, 2):
equal-priority ties follow ids, not insertion order. -/
theorem C3_counterexample_fifo :
    ((dijkstra_find_path pidRM 50 c3grid (1, 1) (2, 2)).2.1.get? 1
        = some (((1 : ℚ) : EQ), 7, ((1 : Int), (2 : Int))))
      ∧ ((dijkstra_find_path pidRM 50 c3grid (1, 1) (2, 2)).2.1.get? 3
          = some (((1 : ℚ) : EQ), 1, ((1 : Int), (0 : Int))))
      ∧ (((dijkstra_find_path pidRM 50 c3grid (1, 1) (2, 2)).2.2.map
              (fun e => e.2.2)).indexOf ((1 : Int), (0 : Int))
          < ((dijkstra_find_path pidRM 50 c3grid (1, 1) (2, 2)).2.2.map
              (fun e => e.2.2)).indexOf ((1 : Int), (2 : Int))) := by
  with_unfolding_all decide

lemma rrt_extend_reset (g : Grid) :
    rrt_extend g.reset_pathfinding_data = rrt_extend g := rfl

lemma rrt_collision_free_reset (g : Grid) :
    rrt_collision_free g.reset_pathfinding_data = rrt_collision_free g := rfl

lemma rrtLoop_reset (g : Grid) (step : ℚ) (gp : ℚ × ℚ)
    (draws : ℕ → Bool × (ℚ × ℚ)) :
    ∀ rem i t m,
      rrtLoop g.reset_pathfinding_data step gp draws i rem t m
        = rrtLoop g step gp draws i rem t m := by
  intro rem
  induction rem with
  | zero => intro i t m; rfl
  | succ n ih =>
      intro i t m
      simp only [rrtLoop, rrt_extend_reset, rrt_collision_free_reset, ih]

/-- C5 amended: every modelled non-incremental engine either resets the
grid scratch state at the start of each call (A star, Dijkstra, IDA star:
the call on any grid equals the call on the reset grid) or never touches
it (RRT reads only the topology).  Incremental Phi star is the exception:
on a replanning call it skips the reset by design and its result can depend
on leftover scratch values — the counterexample below. -/
theorem C5_amended_reset_irrelevance :
    (∀ ht w pid fuel (g : Grid) s t,
        astar_find_path ht w pid fuel g.reset_pathfinding_data s t
          = astar_find_path ht w pid fuel g s t)
    ∧ (∀ pid fuel (g : Grid) s t,
        dijkstra_find_path pid fuel g.reset_pathfinding_data s t
          = dijkstra_find_path pid fuel g s t)
    ∧ (∀ ht mi sf (g : Grid) s t,
        ida_find_path ht mi sf g.reset_pathfinding_data s t
          = ida_find_path ht mi sf g s t)
    ∧ (∀ step mi draws (g : Grid) s t,
        rrt_find_path step mi draws g.reset_pathfinding_data s t
          = rrt_find_path step mi draws g s t) := by
  refine ⟨fun ht w pid fuel g s t => rfl, fun pid fuel g s t => rfl,
    fun ht mi sf g s t => rfl, ?_⟩
  intro step mi draws g s t
  unfold rrt_find_path
  have hval : validate_inputs g.reset_pathfinding_data s t
      = validate_inputs g s t := rfl
  rw [hval]
  cases hv : validate_inputs g s t with
  | some msg => rfl
  | none =>
      dsimp only
      rw [rrtLoop_reset]

/-- Counterexample to C5 as stated: a replanning call of Incremental Phi
star (same goal as the recorded one, non-empty closed set) performs no
reset and reconstructs a path from the leftover scratch g values; the same
call on the same grid with its scratch state reset fails with
"No path exists".  The result therefore depends on scratch state left over
from the previous search. -/
theorem C5_counterexample_phi_uses_stale_scratch :
    (∃ r ps dg2,
        phi_find_path .euclidean (5 / 2) (fun _ => 0) 5 phiPrevState dgStale
            (0, 0) (2, 0) = Except.ok (r, ps, dg2)
          ∧ r.found = true
          ∧ r.path = [((0 : ℚ), (0 : ℚ)), ((1 : ℚ), (0 : ℚ)),
              ((2 : ℚ), (0 : ℚ))])
      ∧ (∃ r ps dg2,
        phi_find_path .euclidean (5 / 2) (fun _ => 0) 5 phiPrevState
            dgStale.reset_pathfinding_data (0, 0) (2, 0)
            = Except.ok (r, ps, dg2)
          ∧ r.found = false ∧ r.path = []
          ∧ r.error_message = some "No path exists") := by
  constructor
  · exact ⟨_, _, _, rfl, by with_unfolding_all decide,
      by with_unfolding_all decide⟩
  · exact ⟨_, _, _, rfl, by with_unfolding_all decide,
      by with_unfolding_all decide, by with_unfolding_all decide⟩

lemma losRun_eq_all (g : Grid) (tgt : Pos) (dx dy xstep ystep : Int) :
    ∀ (fuel : ℕ) (x y err : Int),
      losRun g tgt dx dy xstep ystep fuel x y err
        = (bresTrail tgt dx dy xstep ystep fuel x y err).all
            (fun c => g.is_walkable c.1 c.2) := by
  intro fuel
  induction fuel with
  | zero => intro x y err; simp [losRun, bresTrail]
  | succ n ih =>
      intro x y err
      by_cases ht : ((x, y) : Pos) = tgt
      · subst ht
        by_cases hw : g.is_walkable x y = true <;>
          simp [losRun, bresTrail, hw]
      · by_cases hw : g.is_walkable x y = true <;>
          simp [losRun, bresTrail, ht, hw, ih]

lemma bresTrail_head (tgt : Pos) (dx dy xstep ystep : Int) :
    ∀ (fuel : ℕ) (x y err : Int),
      (bresTrail tgt dx dy xstep ystep fuel x y err).head? = some (x, y) := by
  intro fuel x y err
  cases fuel with
  | zero => rfl
  | succ n =>
      by_cases ht : ((x, y) : Pos) = tgt <;> simp [bresTrail, ht]

lemma bresTrail_ne_nil (tgt : Pos) (dx dy xstep ystep : Int)
    (fuel : ℕ) (x y err : Int) :
    bresTrail tgt dx dy xstep ystep fuel x y err ≠ [] := by
  cases fuel with
  | zero => simp [bresTrail]
  | succ n =>
      by_cases ht : ((x, y) : Pos) = tgt <;> simp [bresTrail, ht]

lemma getLast_cons_ne {a : α} {l : List α} (h : l ≠ []) :
    (a :: l).getLast? = l.getLast? := by
  cases l with
  | nil => exact absurd rfl h
  | cons b t => exact List.getLast?_cons_cons

lemma bresTrail_reaches (ix1 iy1 dx dy xstep ystep : Int)
    (hxs : xstep = 1 ∨ xstep = -1) (hys : ystep = 1 ∨ ystep = -1)
    (hdx : 0 ≤ dx) (hdy : 0 ≤ dy) :
    ∀ (fuel : ℕ) (u v : Int), 0 ≤ u → u ≤ dx → 0 ≤ v → v ≤ dy →
      dx - u + (dy - v) ≤ (fuel : Int) →
      (bresTrail (ix1 + dx * xstep, iy1 + dy * ystep) dx dy xstep ystep fuel
          (ix1 + u * xstep) (iy1 + v * ystep)
          (dx * (1 + v) - dy * (1 + u))).getLast?
        = some (ix1 + dx * xstep, iy1 + dy * ystep) := by
  intro fuel
  induction fuel with
  | zero =>
      intro u v hu0 hud hv0 hvd hfuel
      have hu : u = dx := by omega
      have hv : v = dy := by omega
      subst hu; subst hv
      rfl
  | succ n ih =>
      intro u v hu0 hud hv0 hvd hfuel
      by_cases htgt : ((ix1 + u * xstep, iy1 + v * ystep) : Pos)
          = (ix1 + dx * xstep, iy1 + dy * ystep)
      · simp [bresTrail, htgt]
      · have hne : ¬ (u = dx ∧ v = dy) := by
          rintro ⟨rfl, rfl⟩
          exact htgt rfl
        have hstep2 : xstep * xstep = 1 := by rcases hxs with h | h <;> simp [h]
        have hueq : ∀ w : Int, ix1 + u * xstep = ix1 + w * xstep ↔ u = w := by
          intro w
          constructor
          · intro h
            have : u * xstep = w * xstep := by omega
            rcases hxs with hx | hx <;> (rw [hx] at this; omega)
          · rintro rfl; rfl
        have hveq : ∀ w : Int, iy1 + v * ystep = iy1 + w * ystep ↔ v = w := by
          intro w
          constructor
          · intro h
            have : v * ystep = w * ystep := by omega
            rcases hys with hy | hy <;> (rw [hy] at this; omega)
          · rintro rfl; rfl
        simp only [bresTrail, if_neg htgt]
        rw [getLast_cons_ne (bresTrail_ne_nil _ _ _ _ _ _ _ _ _)]
        set e2 := 2 * (dx * (1 + v) - dy * (1 + u)) with he2
        by_cases hxm : e2 > -dy
        · have hultdx : u < dx := by
            rcases lt_or_eq_of_le hud with h | h
            · exact h
            · exfalso
              subst h
              have hvlt : v < dy := by
                rcases lt_or_eq_of_le hvd with h2 | h2
                · exact h2
                · exact absurd ⟨rfl, h2⟩ hne
              have hmul : u * (1 + v) ≤ u * dy :=
                mul_le_mul_of_nonneg_left (by omega) hu0
              nlinarith [hmul]
          by_cases hym : e2 < dx
          · have hvltdy : v < dy := by
              rcases lt_or_eq_of_le hvd with h | h
              · exact h
              · exfalso
                subst h
                have hmul : (1 + u) * v ≤ dx * v :=
                  mul_le_mul_of_nonneg_right (by omega) hv0
                nlinarith [hmul]
            have := ih (u + 1) (v + 1) (by omega) (by omega) (by omega)
              (by omega) (by omega)
            simp only [if_pos hxm, if_pos hym]
            have hx2 : ix1 + u * xstep + xstep = ix1 + (u + 1) * xstep := by
              ring
            have hy2 : iy1 + v * ystep + ystep = iy1 + (v + 1) * ystep := by
              ring
            have herr : dx * (1 + v) - dy * (1 + u) - dy + dx
                = dx * (1 + (v + 1)) - dy * (1 + (u + 1)) := by ring
            rw [hx2, hy2, herr]
            exact this
          · have := ih (u + 1) v (by omega) (by omega) hv0 hvd (by omega)
            simp only [if_pos hxm, if_neg hym]
            have hx2 : ix1 + u * xstep + xstep = ix1 + (u + 1) * xstep := by
              ring
            have herr : dx * (1 + v) - dy * (1 + u) - dy
                = dx * (1 + v) - dy * (1 + (u + 1)) := by ring
            rw [hx2, herr]
            exact this
        · by_cases hym : e2 < dx
          · have hvltdy : v < dy := by
              rcases lt_or_eq_of_le hvd with h | h
              · exact h
              · exfalso
                subst h
                have hult : u < dx := by
                  rcases lt_or_eq_of_le hud with h2 | h2
                  · exact h2
                  · exact absurd ⟨h2, rfl⟩ hne
                have hmul : (1 + u) * v ≤ dx * v :=
                  mul_le_mul_of_nonneg_right (by omega) hv0
                nlinarith [hmul]
            have := ih u (v + 1) hu0 hud (by omega) (by omega) (by omega)
            simp only [if_neg hxm, if_pos hym]
            have hy2 : iy1 + v * ystep + ystep = iy1 + (v + 1) * ystep := by
              ring
            have herr : dx * (1 + v) - dy * (1 + u) + dx
                = dx * (1 + (v + 1)) - dy * (1 + u) := by ring
            rw [hy2, herr]
            exact this
          · exfalso
            have h1 : e2 ≤ -dy := not_lt.mp hxm
            have h2 : dx ≤ e2 := not_lt.mp hym
            have h3 : dx ≤ -dy := le_trans h2 h1
            have hdx0 : dx = 0 := by omega
            have hdy0 : dy = 0 := by omega
            exact hne ⟨by omega, by omega⟩

lemma cells_getLast (x1 y1 x2 y2 : ℚ) :
    (line_of_sight_cells x1 y1 x2 y2).getLast? = some (pyInt x2, pyInt y2) := by
  unfold line_of_sight_cells
  set ix1 := pyInt x1 with hix1
  set iy1 := pyInt y1 with hiy1
  set ix2 := pyInt x2 with hix2
  set iy2 := pyInt y2 with hiy2
  set xstep : Int := if ix1 < ix2 then 1 else -1 with hxstep
  set ystep : Int := if iy1 < iy2 then 1 else -1 with hystep
  have hxs : xstep = 1 ∨ xstep = -1 := by
    rw [hxstep]; split <;> simp
  have hys : ystep = 1 ∨ ystep = -1 := by
    rw [hystep]; split <;> simp
  have hx2 : ix2 = ix1 + |ix2 - ix1| * xstep := by
    rw [hxstep]
    by_cases h : ix1 < ix2
    · rw [if_pos h, abs_of_nonneg (by omega : (0 : Int) ≤ ix2 - ix1)]
      ring
    · rw [if_neg h, abs_of_nonpos (by omega : ix2 - ix1 ≤ (0 : Int))]
      ring
  have hy2 : iy2 = iy1 + |iy2 - iy1| * ystep := by
    rw [hystep]
    by_cases h : iy1 < iy2
    · rw [if_pos h, abs_of_nonneg (by omega : (0 : Int) ≤ iy2 - iy1)]
      ring
    · rw [if_neg h, abs_of_nonpos (by omega : iy2 - iy1 ≤ (0 : Int))]
      ring
  have hres := bresTrail_reaches ix1 iy1 |ix2 - ix1| |iy2 - iy1| xstep ystep
    hxs hys (abs_nonneg _) (abs_nonneg _)
    (|ix2 - ix1| + |iy2 - iy1|).toNat 0 0 le_rfl (abs_nonneg _) le_rfl
    (abs_nonneg _)
    (by
      rw [Int.toNat_of_nonneg (by positivity)]
      omega)
  rw [show ix1 + (0 : Int) * xstep = ix1 by ring,
    show iy1 + (0 : Int) * ystep = iy1 by ring,
    show |ix2 - ix1| * (1 + (0 : Int)) - |iy2 - iy1| * (1 + (0 : Int))
        = |ix2 - ix1| - |iy2 - iy1| by ring, ← hx2, ← hy2] at hres
  exact hres

/-- C4 amended: the grid line-of-sight query returns False exactly when
some cell of its Bresenham traversal is unwalkable, the traversal runs from
the int-converted first point to the int-converted second point, and it is
the contract used by Theta star (and Lazy Theta star, which calls
grid.has_line_of_sight directly); Incremental Phi star however uses a
placeholder that ignores the grid and always answers True (see the
counterexample).  Side effects: the query is a pure function of the grid
in this embedding, mirroring a Python method that only reads walkability. -/
theorem C4_amended_line_of_sight :
    (∀ (g : Grid) (x1 y1 x2 y2 : ℚ),
        has_line_of_sight g x1 y1 x2 y2 = false
          ↔ ∃ c ∈ line_of_sight_cells x1 y1 x2 y2,
              g.is_walkable c.1 c.2 = false)
    ∧ (∀ x1 y1 x2 y2 : ℚ,
        (line_of_sight_cells x1 y1 x2 y2).head? = some (pyInt x1, pyInt y1)
        ∧ (line_of_sight_cells x1 y1 x2 y2).getLast?
            = some (pyInt x2, pyInt y2))
    ∧ (∀ (g : Grid) (c : ℚ × ℚ) (n : Pos),
        theta_line_of_sight_check g c n
          = has_line_of_sight g c.1 c.2 (n.1 : ℚ) (n.2 : ℚ))
    ∧ (∀ (g : Grid) (a b : Pos), phi_has_line_of_sight g a b = true) := by
  refine ⟨?_, ?_, fun g c n => rfl, fun g a b => rfl⟩
  · intro g x1 y1 x2 y2
    unfold has_line_of_sight line_of_sight_cells
    rw [losRun_eq_all]
    simp [List.all_eq_false]
  · intro x1 y1 x2 y2
    exact ⟨bresTrail_head _ _ _ _ _ _ _ _ _, cells_getLast x1 y1 x2 y2⟩

/-- Counterexample to C4 as stated: on a 1-row grid with the middle cell
blocked, the grid line-of-sight between the end cells is False, but the
line-of-sight helper Incremental Phi star actually uses is the placeholder
that returns True — so the Bresenham contract is not the one used by every
any-angle algorithm. -/
theorem C4_counterexample_phi_ignores_grid :
    phi_has_line_of_sight (mkGrid 3 1 [((1 : Int), (0 : Int))]) (0, 0) (2, 0)
        = true
      ∧ has_line_of_sight (mkGrid 3 1 [((1 : Int), (0 : Int))]) 0 0 2 0
        = false := by
  refine ⟨rfl, ?_⟩
  with_unfolding_all decide

/-- Invariant of the running next_threshold: still at its initial inf, or
strictly above the current threshold (it only ever receives minima of f
values that exceeded the threshold). -/
def NextOk (threshold : EQ) (st : IdaInner) : Prop :=
  st.next_threshold = ⊤ ∨ threshold < st.next_threshold

lemma nextOk_min {threshold f : EQ} {st : IdaInner} (hf : threshold < f)
    (h : NextOk threshold st) :
    NextOk threshold { st with next_threshold := min st.next_threshold f } := by
  right
  show threshold < min st.next_threshold f
  refine lt_min ?_ hf
  rcases h with h | h
  · rw [h]
    exact lt_of_lt_of_le hf le_top
  · exact h

lemma ida_search_nextOk (ht : HType) (grid : Grid) (goal : Pos)
    (threshold : EQ) :
    ∀ (fuel : ℕ),
      (∀ node gcost path st, NextOk threshold st →
        NextOk threshold
          (ida_search ht grid goal threshold fuel node gcost path st).2)
      ∧ (∀ node gcost path ns cutoff st, NextOk threshold st →
        NextOk threshold
          (idaChildren ht grid goal threshold fuel node gcost path ns cutoff
            st).2) := by
  intro fuel
  induction fuel with
  | zero =>
      constructor
      · intro node gcost path st h
        rw [ida_search]
        exact h
      · intro node gcost path ns cutoff st h
        induction ns generalizing cutoff st with
        | nil =>
            rw [idaChildren]
            split <;> exact h
        | cons n rest ihl =>
            rw [idaChildren]
            dsimp only
            split
            · exact ihl cutoff _ h
            · have hs : NextOk threshold
                  (ida_search ht grid goal threshold 0 n
                    (gcost + grid.get_movement_cost node n) (path ++ [n])
                    { st with m := st.m.visit }).2 := by
                rw [ida_search]
                exact h
              split
              · next heq =>
                  rw [heq] at hs
                  exact hs
              · next heq =>
                  rw [heq] at hs
                  exact ihl true _ hs
              · next heq =>
                  rw [heq] at hs
                  exact ihl cutoff _ hs
  | succ k ih =>
      have hsearch : ∀ node gcost path st, NextOk threshold st →
          NextOk threshold
            (ida_search ht grid goal threshold (k + 1) node gcost path st).2 := by
        intro node gcost path st h
        rw [ida_search]
        dsimp only
        split
        · next hgt => exact nextOk_min hgt h
        · split
          · exact h
          · exact (ih).2 node gcost path (grid.get_neighbors node) false
              { st with m := (st.m.mem path.length).expand } h
      refine ⟨hsearch, ?_⟩
      intro node gcost path ns cutoff st h
      induction ns generalizing cutoff st with
      | nil =>
          rw [idaChildren]
          split <;> exact h
      | cons n rest ihl =>
          rw [idaChildren]
          dsimp only
          split
          · exact ihl cutoff _ h
          · have hs := hsearch n (gcost + grid.get_movement_cost node n)
              (path ++ [n]) { st with m := st.m.visit } h
            split
            · next heq =>
                rw [heq] at hs
                exact hs
            · next heq =>
                rw [heq] at hs
                exact ihl true _ hs
            · next heq =>
                rw [heq] at hs
                exact ihl cutoff _ hs

lemma idaLoop_trace_mono (ht : HType) (grid : Grid) (start goal : Pos)
    (sfuel : ℕ) :
    ∀ (rem : ℕ) (threshold : EQ) (m : Metrics),
      List.Chain' (· ≤ ·)
          (idaLoop ht grid start goal sfuel rem threshold m).2.2.2
        ∧ (idaLoop ht grid start goal sfuel rem threshold m).2.2.2.length ≤ rem
        ∧ ∀ x ∈ (idaLoop ht grid start goal sfuel rem threshold m).2.2.2,
            threshold ≤ x := by
  intro rem
  induction rem with
  | zero =>
      intro threshold m
      exact ⟨List.chain'_nil, by simp [idaLoop], by simp [idaLoop]⟩
  | succ k ih =>
      intro threshold m
      rw [idaLoop]
      dsimp only
      have hnext := (ida_search_nextOk ht grid goal threshold sfuel).1 start 0
        [start] ⟨⊤, m⟩ (Or.inl rfl)
      split
      · exact ⟨List.chain'_singleton _, by simp, by simp⟩
      · exact ⟨List.chain'_singleton _, by simp, by simp⟩
      · next st heq =>
          rw [heq] at hnext
          have hle : threshold ≤ st.next_threshold := by
            rcases hnext with h | h
            · rw [h]; exact le_top
            · exact le_of_lt h
          obtain ⟨ihc, ihlen, ihall⟩ := ih st.next_threshold st.m.iter
          dsimp only
          refine ⟨?_, by simpa using ihlen, ?_⟩
          · rw [List.chain'_cons']
            refine ⟨?_, ihc⟩
            intro h hh
            exact le_trans hle (ihall h (List.mem_of_mem_head? hh))
          · intro x hx
            rcases List.mem_cons.mp hx with rfl | hx'
            · exact le_rfl
            · exact le_trans hle (ihall x hx')

/-- C6: along any IDA star run the sequence of thresholds used by the
successive outer iterations is non-decreasing (the next threshold is the
tracked minimum of the f values that exceeded the current one, which the
NextOk invariant shows is never below it), and the run terminates after at
most max_iterations outer iterations — the model is a total function and
its threshold trace has length at most the iteration cap.  This holds for
every heuristic, in particular admissible ones, and for every grid, start
and goal. -/
theorem C6_ida_thresholds_monotone_finite :
    ∀ ht mi sf (g : Grid) s t,
      List.Chain' (· ≤ ·) (ida_find_path ht mi sf g s t).2
        ∧ (ida_find_path ht mi sf g s t).2.length ≤ mi := by
  intro ht mi sf g s t
  unfold ida_find_path
  split
  · exact ⟨List.chain'_nil, by simp⟩
  · dsimp only
    split
    · exact ⟨List.chain'_nil, by simp⟩
    · split
      · exact ⟨List.chain'_nil, by simp⟩
      · obtain ⟨hc, hlen, _⟩ := idaLoop_trace_mono ht
          (g.reset_pathfinding_data) s t sf mi
          ((get_heuristic ht s t : ℚ) : EQ) Metrics.init
        split
        · next heq =>
            rw [heq] at hc hlen
            exact ⟨hc, hlen⟩
        · next heq =>
            rw [heq] at hc hlen
            exact ⟨hc, hlen⟩
        · next heq =>
            rw [heq] at hc hlen
            exact ⟨hc, hlen⟩

lemma tgetD_oob {t : RTree} {j : ℕ} (h : t.length ≤ j) :
    treeGetD t j = ⟨0, 0, none, [], 0⟩ := by
  unfold treeGetD
  rw [List.get?_eq_none.mpr h]
  rfl

lemma parentOf_oob {t : RTree} {j : ℕ} (h : t.length ≤ j) :
    parentOf t j = none := by
  unfold parentOf
  rw [tgetD_oob h]

lemma parentOf_lt {t : RTree} {j : ℕ} {p : ℕ} (h : parentOf t j = some p) :
    j < t.length := by
  by_contra hj
  rw [parentOf_oob (Nat.le_of_not_lt hj)] at h
  exact Option.noConfusion h

lemma tm_length (t : RTree) (i : ℕ) (f : SNode → SNode) :
    (treeModify t i f).length = t.length := by
  unfold treeModify
  split
  · rfl
  · exact List.length_set t i _

lemma tm_oob {t : RTree} {i : ℕ} (h : t.length ≤ i) (f : SNode → SNode) :
    treeModify t i f = t := by
  unfold treeModify
  rw [List.get?_eq_none.mpr h]

lemma tgetD_lt {t : RTree} {j : ℕ} (h : j < t.length) :
    t.get? j = some (treeGetD t j) := by
  unfold treeGetD
  rw [List.get?_eq_get h]
  rfl

lemma tset_getD_self {t : RTree} {p : ℕ} (h : p < t.length) (v : SNode) :
    treeGetD (t.set p v) p = v := by
  unfold treeGetD
  rw [List.get?_set_eq, List.get?_eq_get h]
  rfl

lemma tset_getD_other {t : RTree} {p j : ℕ} (h : j ≠ p) (v : SNode) :
    treeGetD (t.set p v) j = treeGetD t j := by
  unfold treeGetD
  rw [List.get?_set_ne _ _ (fun e => h e.symm)]

lemma tm_getD_self {t : RTree} {i : ℕ} (h : i < t.length) (f : SNode → SNode) :
    treeGetD (treeModify t i f) i = f (treeGetD t i) := by
  unfold treeModify
  rw [tgetD_lt h]
  exact tset_getD_self h _

lemma tm_getD_other {t : RTree} {i j : ℕ} (h : j ≠ i) (f : SNode → SNode) :
    treeGetD (treeModify t i f) j = treeGetD t j := by
  unfold treeModify
  split
  · rfl
  · exact tset_getD_other h _

lemma foldl_mem_inv {α β : Type} (f : α → β → α) (P : α → Prop) :
    ∀ (l : List β) (a : α), (∀ x b, b ∈ l → P x → P (f x b)) → P a →
      P (l.foldl f a) := by
  intro l
  induction l with
  | nil => intro a _ ha; exact ha
  | cons b rest ih =>
      intro a hstep ha
      exact ih (f a b)
        (fun x c hc hx => hstep x c (List.mem_cons_of_mem _ hc) hx)
        (hstep a b (List.mem_cons_self _ _) ha)

lemma pySqrt_nonneg (q : ℚ) : 0 ≤ pySqrt q := by
  unfold pySqrt
  rw [Rat.mkRat_eq_div]
  exact div_nonneg (by exact_mod_cast Int.sqrt_nonneg q.num)
    (by exact_mod_cast Nat.zero_le _)

lemma pyDist_nonneg (a b : ℚ × ℚ) : 0 ≤ pyDist a b := pySqrt_nonneg _

lemma pyDist_self (a : ℚ × ℚ) : pyDist a a = 0 := by
  unfold pyDist
  have h0 : (a.1 - a.1) * (a.1 - a.1) + (a.2 - a.2) * (a.2 - a.2) = 0 := by
    ring
  rw [h0]
  with_unfolding_all decide

lemma desc_trans {s : RTree} {i c j : ℕ} (h1 : Desc s i c) (h2 : Desc s c j) :
    Desc s i j := by
  induction h2 with
  | child j hj => exact Desc.step j c h1 hj
  | step j k _ hpj ih => exact Desc.step j k ih hpj

lemma desc_parent {s : RTree} {a j q : ℕ} (h : Desc s a j)
    (hq : parentOf s j = some q) : a = q ∨ Desc s a q := by
  cases h with
  | child j hj =>
      left
      exact Option.some_injective _ (hj.symm.trans hq)
  | step j k hk hpj =>
      right
      have : k = q := Option.some_injective _ (hpj.symm.trans hq)
      exact this ▸ hk

lemma desc_depth {s : RTree} {d : ℕ → ℕ} {D : ℕ} (cert : DepthCert s d D)
    {a j : ℕ} (h : Desc s a j) : d a < d j := by
  induction h with
  | child j hj => exact cert.1 j (parentOf_lt hj) a hj
  | step j k _ hpj ih => exact lt_trans ih (cert.1 j (parentOf_lt hpj) k hpj)

lemma desc_irrefl {s : RTree} {d : ℕ → ℕ} {D : ℕ} (cert : DepthCert s d D)
    (i : ℕ) : ¬ Desc s i i := fun h => lt_irrefl _ (desc_depth cert h)

lemma desc_lt {s : RTree} {i j : ℕ} (h : Desc s i j) : j < s.length := by
  cases h with
  | child j hj => exact parentOf_lt hj
  | step j k _ hpj => exact parentOf_lt hpj

lemma desc_linear {s : RTree} {a j : ℕ} (h1 : Desc s a j) :
    ∀ b, Desc s b j → a = b ∨ Desc s a b ∨ Desc s b a := by
  induction h1 with
  | child j hj =>
      intro b h2
      cases h2 with
      | child j hb =>
          left
          exact Option.some_injective _ (hj.symm.trans hb)
      | step j k hk hpj =>
          have : k = a := Option.some_injective _ (hpj.symm.trans hj)
          right; right
          exact this ▸ hk
  | step j k hk hpj ih =>
      intro b h2
      cases h2 with
      | child j hb =>
          have : b = k := Option.some_injective _ (hb.symm.trans hpj)
          right; left
          exact (this ▸ hk : Desc s a b)
      | step j k2 hk2 hpj2 =>
          have : k2 = k := Option.some_injective _ (hpj2.symm.trans hpj)
          exact ih b (this ▸ hk2)

lemma sibling_not_desc {s : RTree} {d : ℕ → ℕ} {D : ℕ}
    (cert : DepthCert s d D) {i a b : ℕ} (ha : parentOf s a = some i)
    (hb : parentOf s b = some i) : ¬ Desc s b a := by
  intro h
  have hdi : d i < d b := cert.1 b (parentOf_lt hb) i hb
  rcases desc_parent h ha with rfl | h2
  · exact lt_irrefl _ hdi
  · exact absurd (desc_depth cert h2) (Nat.not_lt_of_lt hdi)

lemma subtree_disjoint {s : RTree} {d : ℕ → ℕ} {D : ℕ}
    (cert : DepthCert s d D) {i c1 c j : ℕ} (hc1 : parentOf s c1 = some i)
    (hc : parentOf s c = some i) (hne : c1 ≠ c)
    (hj : j = c1 ∨ Desc s c1 j) : j ≠ c ∧ ¬ Desc s c j := by
  rcases hj with rfl | hj
  · exact ⟨hne, sibling_not_desc cert hc1 hc⟩
  · constructor
    · rintro rfl
      exact sibling_not_desc cert hc hc1 hj
    · intro hj2
      rcases desc_linear hj c hj2 with rfl | h | h
      · exact hne rfl
      · exact sibling_not_desc cert hc hc1 h
      · exact sibling_not_desc cert hc1 hc h

lemma desc_not_anc {s : RTree} {d : ℕ → ℕ} {D : ℕ} (cert : DepthCert s d D)
    {i c : ℕ} (hc : parentOf s c = some i) : c ≠ i ∧ ¬ Desc s c i := by
  have hdi : d i < d c := cert.1 c (parentOf_lt hc) i hc
  constructor
  · rintro rfl
    exact lt_irrefl _ hdi
  · intro h
    exact absurd (desc_depth cert h) (Nat.not_lt_of_lt hdi)

lemma desc_first_child {s : RTree} (hcc : ChildComplete s) {i j : ℕ}
    (h : Desc s i j) : ∃ c ∈ childrenOf s i, j = c ∨ Desc s c j := by
  induction h with
  | child j hj =>
      exact ⟨j, (hcc j (parentOf_lt hj) i hj).2, Or.inl rfl⟩
  | step j k hk hpj ih =>
      obtain ⟨c, hcmem, hor⟩ := ih
      refine ⟨c, hcmem, Or.inr ?_⟩
      rcases hor with rfl | hor
      · exact Desc.child j hpj
      · exact Desc.step j k hor hpj

lemma desc_mono {s r : RTree} (hp : ∀ j, parentOf s j = parentOf r j)
    {i j : ℕ} (h : Desc s i j) : Desc r i j := by
  induction h with
  | child j hj => exact Desc.child j ((hp j) ▸ hj)
  | step j k _ hpj ih => exact Desc.step j k ih ((hp j) ▸ hpj)

lemma cost_mono {t : RTree} (hci : CostInv t) {a j : ℕ} (h : Desc t a j) :
    costOf t a ≤ costOf t j := by
  induction h with
  | child j hj =>
      rw [show costOf t j = _ from hci j (parentOf_lt hj) a hj]
      exact le_add_of_nonneg_right (pyDist_nonneg _ _)
  | step j k _ hpj ih =>
      refine le_trans ih ?_
      rw [show costOf t j = _ from hci j (parentOf_lt hpj) k hpj]
      exact le_add_of_nonneg_right (pyDist_nonneg _ _)

lemma structEq_refl (s : RTree) : treeStructEq s s :=
  ⟨rfl, fun _ => ⟨rfl, rfl, rfl⟩⟩

lemma structEq_comp {s r u : RTree} (h1 : treeStructEq s r)
    (h2 : treeStructEq r u) : treeStructEq s u := by
  refine ⟨h2.1.trans h1.1, fun j => ?_⟩
  obtain ⟨a1, b1, c1⟩ := h1.2 j
  obtain ⟨a2, b2, c2⟩ := h2.2 j
  exact ⟨a2.trans a1, b2.trans b1, c2.trans c1⟩

lemma structEq_modify_cost (r : RTree) (c : ℕ) (X : SNode → ℚ) :
    treeStructEq r (treeModify r c (fun n => { n with cost := X n })) := by
  refine ⟨tm_length r c _, fun j => ?_⟩
  by_cases hj : j = c
  · subst hj
    by_cases hc : j < r.length
    · unfold parentOf childrenOf posOf SNode.pos
      rw [tm_getD_self hc]
      exact ⟨rfl, rfl, rfl⟩
    · rw [tm_oob (Nat.le_of_not_lt hc)]
      exact ⟨rfl, rfl, rfl⟩
  · unfold parentOf childrenOf posOf
    rw [tm_getD_other hj]
    exact ⟨rfl, rfl, rfl⟩

lemma structEq_parent {s r : RTree} (h : treeStructEq s r) (j : ℕ) :
    parentOf r j = parentOf s j := (h.2 j).1

lemma structEq_childSound {s r : RTree} (h : treeStructEq s r)
    (hcs : ChildSound s) : ChildSound r := by
  intro j hj c hc
  rw [h.1] at hj
  have hc2 : c ∈ childrenOf s j := by
    rw [← (h.2 j).2.1]
    exact hc
  obtain ⟨h1, h2⟩ := hcs j hj c hc2
  refine ⟨h.1 ▸ h1, ?_⟩
  rw [(h.2 c).1]
  exact h2

lemma structEq_childComplete {s r : RTree} (h : treeStructEq s r)
    (hcc : ChildComplete s) : ChildComplete r := by
  intro c hc p hp
  rw [h.1] at hc
  rw [(h.2 c).1] at hp
  obtain ⟨h1, h2⟩ := hcc c hc p hp
  refine ⟨h.1 ▸ h1, ?_⟩
  rw [show (treeGetD r p).children = childrenOf r p from rfl, (h.2 p).2.1]
  exact h2

lemma structEq_nodup {s r : RTree} (h : treeStructEq s r)
    (hnd : NodupChildren s) : NodupChildren r := by
  intro j hj
  rw [h.1] at hj
  rw [(h.2 j).2.1]
  exact hnd j hj

lemma structEq_cert {s r : RTree} (h : treeStructEq s r) {d : ℕ → ℕ} {D : ℕ}
    (cert : DepthCert s d D) : DepthCert r d D := by
  constructor
  · intro j hj p hp
    rw [h.1] at hj
    rw [(h.2 j).1] at hp
    exact cert.1 j hj p hp
  · intro j hj
    rw [h.1] at hj
    exact cert.2 j hj

lemma structEq_desc {s r : RTree} (h : treeStructEq s r) {i j : ℕ} :
    Desc r i j ↔ Desc s i j :=
  ⟨desc_mono (fun j => (h.2 j).1), desc_mono (fun j => ((h.2 j).1).symm)⟩

lemma costInv_of_B {t : RTree} (h : costInvB t = true) : CostInv t := by
  intro j hj p hp
  have := (List.all_eq_true.mp h) j (List.mem_range.mpr hj)
  rw [hp] at this
  exact of_decide_eq_true this

lemma parentBound_of_B {t : RTree} (h : parentBoundB t = true) :
    ParentBound t := by
  intro j hj p hp
  have := (List.all_eq_true.mp h) j (List.mem_range.mpr hj)
  rw [hp] at this
  exact of_decide_eq_true this

lemma childSound_of_B {t : RTree} (h : childSoundB t = true) :
    ChildSound t := by
  intro j hj c hc
  have h1 := (List.all_eq_true.mp h) j (List.mem_range.mpr hj)
  have h2 := (List.all_eq_true.mp h1) c hc
  simp only [Bool.and_eq_true] at h2
  exact ⟨of_decide_eq_true h2.1, of_decide_eq_true h2.2⟩

lemma childComplete_of_B {t : RTree} (h : childCompleteB t = true) :
    ChildComplete t := by
  intro c hc p hp
  have := (List.all_eq_true.mp h) c (List.mem_range.mpr hc)
  rw [hp] at this
  simp only [Bool.and_eq_true] at this
  exact ⟨of_decide_eq_true this.1, of_decide_eq_true this.2⟩

lemma nodupChildren_of_B {t : RTree} (h : nodupChildrenB t = true) :
    NodupChildren t := by
  intro j hj
  exact of_decide_eq_true ((List.all_eq_true.mp h) j (List.mem_range.mpr hj))

lemma depthCert_of_B {t : RTree} {dl : List ℕ} {D : ℕ}
    (h : depthCertB t dl D = true) :
    DepthCert t (fun i => dl.getD i 0) D := by
  constructor
  · intro j hj p hp
    have := (List.all_eq_true.mp h) j (List.mem_range.mpr hj)
    rw [hp] at this
    simp only [Bool.and_eq_true] at this
    exact of_decide_eq_true this.1
  · intro j hj
    have := (List.all_eq_true.mp h) j (List.mem_range.mpr hj)
    simp only [Bool.and_eq_true] at this
    exact of_decide_eq_true this.2

lemma costOf_modify_other {t : RTree} {c j : ℕ} (h : j ≠ c)
    (f : SNode → SNode) : costOf (treeModify t c f) j = costOf t j := by
  unfold costOf
  rw [tm_getD_other h]

lemma childrenOf_oob {t : RTree} {i : ℕ} (h : ¬ i < t.length) :
    childrenOf t i = [] := by
  unfold childrenOf
  rw [tgetD_oob (Nat.le_of_not_lt h)]

lemma ud_main : ∀ (fuel i : ℕ) (s : RTree) (d : ℕ → ℕ) (D : ℕ),
    ChildSound s → ChildComplete s → NodupChildren s →
    DepthCert s d D → D ≤ fuel + d i →
    UDInv s i (childrenOf s i) (updateDescendants s fuel i) := by
  intro fuel
  induction fuel with
  | zero =>
      intro i s d D hcs hcc hnd cert hfuel
      refine ⟨structEq_refl s, fun j _ => rfl, ?_⟩
      intro c1 hc1
      by_cases hi : i < s.length
      · exact absurd (cert.2 i hi) (by omega)
      · rw [childrenOf_oob hi] at hc1
        exact absurd hc1 (List.not_mem_nil c1)
  | succ fuel ih =>
      intro i s d D hcs hcc hnd cert hfuel
      have hud : updateDescendants s (fuel + 1) i
          = (childrenOf s i).foldl
              (fun acc c =>
                updateDescendants (treeModify acc c (fun n =>
                  { n with cost := (treeGetD acc i).cost
                    + pyDist (treeGetD acc i).pos n.pos })) fuel c) s := rfl
      rw [hud]
      by_cases hi : i < s.length
      case neg =>
        rw [childrenOf_oob hi]
        exact ⟨structEq_refl s, fun _ _ => rfl,
          fun c1 hc1 => absurd hc1 (List.not_mem_nil c1)⟩
      case pos =>
      have hnodup_i : (childrenOf s i).Nodup := hnd i hi
      have key : ∀ cs2 cs1 acc, childrenOf s i = cs1 ++ cs2 →
          UDInv s i cs1 acc →
          UDInv s i (cs1 ++ cs2)
            (cs2.foldl
              (fun acc c =>
                updateDescendants (treeModify acc c (fun n =>
                  { n with cost := (treeGetD acc i).cost
                    + pyDist (treeGetD acc i).pos n.pos })) fuel c) acc) := by
        intro cs2
        induction cs2 with
        | nil =>
            intro cs1 acc heq hQ
            simpa using hQ
        | cons c cs2 ihl =>
            intro cs1 acc heq hQ
            obtain ⟨hSE, hOut, hIn⟩ := hQ
            have hcmem : c ∈ childrenOf s i := by
              rw [heq]
              exact List.mem_append_right cs1 (List.mem_cons_self c cs2)
            obtain ⟨hclt, hpc⟩ := hcs i hi c hcmem
            have hdesc_c : Desc s i c := Desc.child c hpc
            have hcnotin1 : c ∉ cs1 := by
              intro hmem
              have hnd2 : (cs1 ++ c :: cs2).Nodup := heq ▸ hnodup_i
              exact (List.nodup_append.mp hnd2).2.2 hmem
                (List.mem_cons_self c cs2)
            have hSEm := structEq_modify_cost acc c
              (fun n => (treeGetD acc i).cost + pyDist (treeGetD acc i).pos n.pos)
            have hSEp : treeStructEq s
                (treeModify acc c (fun n =>
                  { n with cost := (treeGetD acc i).cost
                    + pyDist (treeGetD acc i).pos n.pos })) :=
              structEq_comp hSE hSEm
            have hcs2 := structEq_childSound hSEp hcs
            have hcc2 := structEq_childComplete hSEp hcc
            have hnd2 := structEq_nodup hSEp hnd
            have cert2 := structEq_cert hSEp cert
            have hfuel2 : D ≤ fuel + d c := by
              have := cert.1 c hclt i hpc
              omega
            have hrec := ih c
              (treeModify acc c (fun n =>
                { n with cost := (treeGetD acc i).cost
                  + pyDist (treeGetD acc i).pos n.pos })) d D
              hcs2 hcc2 hnd2 cert2 hfuel2
            obtain ⟨rSE, rOut, rIn⟩ := hrec
            have hKeep : ∀ j, j ≠ c → ¬ Desc s c j →
                costOf (updateDescendants (treeModify acc c (fun n =>
                  { n with cost := (treeGetD acc i).cost
                    + pyDist (treeGetD acc i).pos n.pos })) fuel c) j
                  = costOf acc j := by
              intro j h1 h2
              rw [rOut j (fun h => h2 ((structEq_desc hSEp).mp h)),
                costOf_modify_other h1]
            have hcne_i : c ≠ i ∧ ¬ Desc s c i := desc_not_anc cert hpc
            have hstep : UDInv s i (cs1 ++ [c])
                (updateDescendants (treeModify acc c (fun n =>
                  { n with cost := (treeGetD acc i).cost
                    + pyDist (treeGetD acc i).pos n.pos })) fuel c) := by
              refine ⟨structEq_comp hSEp rSE, ?_, ?_⟩
              · intro j hj
                have hjc : j ≠ c := by
                  rintro rfl
                  exact hj hdesc_c
                have hjdc : ¬ Desc s c j := fun h => hj (desc_trans hdesc_c h)
                rw [hKeep j hjc hjdc]
                exact hOut j hj
              · intro c1 hc1 j hj q hq
                rcases List.mem_append.mp hc1 with hc1 | hc1
                · -- earlier sibling: values already final, untouched here
                  have hp_c1 : parentOf s c1 = some i :=
                    (hcs i hi c1 (by
                      show c1 ∈ childrenOf s i
                      rw [heq]
                      exact List.mem_append_left _ hc1)).2
                  have hne_c1c : c1 ≠ c := fun e => hcnotin1 (e ▸ hc1)
                  have hprev := hIn c1 hc1 j hj q hq
                  rcases hj with rfl | hj
                  · -- j = c1, parent is i
                    have hqi : i = q := Option.some_injective _ (hp_c1.symm.trans hq)
                    subst hqi
                    have hdisj := sibling_not_desc cert hp_c1 hpc
                    rw [hKeep j hne_c1c hdisj, hKeep i (Ne.symm hcne_i.1) hcne_i.2]
                    exact hprev
                  · have hdisj := subtree_disjoint cert hp_c1 hpc hne_c1c (Or.inr hj)
                    have hq_sub : q = c1 ∨ Desc s c1 q := by
                      rcases desc_parent hj hq with h | h
                      · exact Or.inl h.symm
                      · exact Or.inr h
                    have hdisjq := subtree_disjoint cert hp_c1 hpc hne_c1c hq_sub
                    rw [hKeep j hdisj.1 hdisj.2, hKeep q hdisjq.1 hdisjq.2]
                    exact hprev
                · -- c1 = c : the freshly processed subtree
                  have hc1c : c1 = c := List.mem_singleton.mp hc1
                  rw [hc1c] at hj
                  rcases hj with hjc | hj
                  · -- j = c itself
                    rw [hjc] at hq ⊢
                    have hqi : i = q := Option.some_injective _ (hpc.symm.trans hq)
                    rw [← hqi]
                    have hclt2 : c < acc.length := by
                      rw [hSE.1]
                      exact hclt
                    have hcost_acc2 : costOf (treeModify acc c (fun n =>
                        { n with cost := (treeGetD acc i).cost
                          + pyDist (treeGetD acc i).pos n.pos })) c
                        = costOf acc i + pyDist (posOf acc i) (posOf acc c) := by
                      unfold costOf
                      rw [tm_getD_self hclt2]
                      rfl
                    have hnotdesc : ¬ Desc (treeModify acc c (fun n =>
                        { n with cost := (treeGetD acc i).cost
                          + pyDist (treeGetD acc i).pos n.pos })) c c :=
                      desc_irrefl cert2 c
                    rw [rOut c hnotdesc, hcost_acc2,
                      hKeep i (Ne.symm hcne_i.1) hcne_i.2]
                    rw [hOut i (desc_irrefl cert i), (hSE.2 i).2.2, (hSE.2 c).2.2]
                  · -- j strictly below c
                    have hdesc2 : Desc (treeModify acc c (fun n =>
                        { n with cost := (treeGetD acc i).cost
                          + pyDist (treeGetD acc i).pos n.pos })) c j :=
                      (structEq_desc hSEp).mpr hj
                    obtain ⟨c2, hc2mem, hc2or⟩ := desc_first_child hcc2 hdesc2
                    have hq2 : parentOf (treeModify acc c (fun n =>
                        { n with cost := (treeGetD acc i).cost
                          + pyDist (treeGetD acc i).pos n.pos })) j = some q := by
                      rw [(hSEp.2 j).1]
                      exact hq
                    have := rIn c2 hc2mem j hc2or q hq2
                    rw [this, (hSEp.2 q).2.2, (hSEp.2 j).2.2]
            have hres := ihl (cs1 ++ [c]) _
              (by rw [heq, List.append_assoc]; rfl) hstep
            rw [List.append_assoc] at hres
            simpa using hres
      have hstart := key (childrenOf s i) [] s (List.nil_append _).symm
        ⟨structEq_refl s, fun _ _ => rfl,
          fun c1 hc1 => absurd hc1 (List.not_mem_nil c1)⟩
      simpa using hstart

lemma tm_congr {t : RTree} {p : ℕ} {f g : SNode → SNode}
    (h : f (treeGetD t p) = g (treeGetD t p)) :
    treeModify t p f = treeModify t p g := by
  unfold treeModify
  cases hg : t.get? p with
  | none => rfl
  | some n =>
      show t.set p (f n) = t.set p (g n)
      have hn : n = treeGetD t p := by
        unfold treeGetD
        rw [hg]
        rfl
      rw [hn, h]

lemma rewired_getD {t : RTree} {p newIdx i : ℕ} (pc : ℚ)
    (hip : p ≠ i) (hni : newIdx ≠ i) (hpn : p ≠ newIdx)
    (hp : p < t.length) (hn : newIdx < t.length) (hi : i < t.length)
    (hmem : i ∈ childrenOf t p) (hnotmem : i ∉ childrenOf t newIdx) :
    (rewiredTree t p newIdx i pc).length = t.length
    ∧ treeGetD (rewiredTree t p newIdx i pc) i
        = { treeGetD t i with parent := some newIdx, cost := pc }
    ∧ treeGetD (rewiredTree t p newIdx i pc) p
        = { treeGetD t p with
            children := (treeGetD t p).children.erase i }
    ∧ treeGetD (rewiredTree t p newIdx i pc) newIdx
        = { treeGetD t newIdx with
            children := (treeGetD t newIdx).children ++ [i] }
    ∧ ∀ j, j ≠ i → j ≠ p → j ≠ newIdx →
        treeGetD (rewiredTree t p newIdx i pc) j = treeGetD t j := by
  have hip2 : i ≠ p := fun e => hip e.symm
  have hni2 : i ≠ newIdx := fun e => hni e.symm
  have hnp : newIdx ≠ p := fun e => hpn e.symm
  have hrc : treeRemoveChild t p i
      = treeModify (t.set p { treeGetD t p with
          children := (treeGetD t p).children.erase i }) i
        (fun m => { m with parent := none }) := by
    unfold treeRemoveChild
    rw [tgetD_lt hp]
    show (if i ∈ (treeGetD t p).children then
        treeModify (t.set p { treeGetD t p with
          children := (treeGetD t p).children.erase i }) i
          (fun m => { m with parent := none })
      else t) = _
    rw [if_pos (show i ∈ (treeGetD t p).children from hmem)]
  have hL1 : (treeRemoveChild t p i).length = t.length := by
    rw [hrc, tm_length, List.length_set]
  have h1i : treeGetD (treeRemoveChild t p i) i
      = { treeGetD t i with parent := none } := by
    rw [hrc, tm_getD_self (by rw [List.length_set]; exact hi),
      tset_getD_other hip2]
  have h1p : treeGetD (treeRemoveChild t p i) p
      = { treeGetD t p with
          children := (treeGetD t p).children.erase i } := by
    rw [hrc, tm_getD_other hip, tset_getD_self hp]
  have h1o : ∀ j, j ≠ i → j ≠ p →
      treeGetD (treeRemoveChild t p i) j = treeGetD t j := by
    intro j hj1 hj2
    rw [hrc, tm_getD_other hj1, tset_getD_other hj2]
  have h1n : treeGetD (treeRemoveChild t p i) newIdx = treeGetD t newIdx :=
    h1o newIdx hni hnp
  have hcong : treeModify (treeRemoveChild t p i) newIdx
      (fun n => if i ∈ n.children then n
        else { n with children := n.children ++ [i] })
      = treeModify (treeRemoveChild t p i) newIdx
        (fun n => { n with children := n.children ++ [i] }) := by
    apply tm_congr
    dsimp only
    rw [if_neg (by rw [h1n]; exact hnotmem)]
  have hac : treeAddChild (treeRemoveChild t p i) newIdx i
      = treeModify (treeModify (treeRemoveChild t p i) newIdx
          (fun n => { n with children := n.children ++ [i] })) i
        (fun n => { n with parent := some newIdx }) := by
    unfold treeAddChild
    show treeModify (treeModify (treeRemoveChild t p i) newIdx
        (fun n => if i ∈ n.children then n
          else { n with children := n.children ++ [i] })) i
      (fun n => { n with parent := some newIdx }) = _
    rw [hcong]
  have hL2 : (treeAddChild (treeRemoveChild t p i) newIdx i).length
      = t.length := by
    rw [hac, tm_length, tm_length, hL1]
  have h2i : treeGetD (treeAddChild (treeRemoveChild t p i) newIdx i) i
      = { treeGetD t i with parent := some newIdx } := by
    rw [hac, tm_getD_self (by rw [tm_length, hL1]; exact hi),
      tm_getD_other hni2, h1i]
  have h2p : treeGetD (treeAddChild (treeRemoveChild t p i) newIdx i) p
      = { treeGetD t p with
          children := (treeGetD t p).children.erase i } := by
    rw [hac, tm_getD_other hip, tm_getD_other hpn, h1p]
  have h2n : treeGetD (treeAddChild (treeRemoveChild t p i) newIdx i) newIdx
      = { treeGetD t newIdx with
          children := (treeGetD t newIdx).children ++ [i] } := by
    rw [hac, tm_getD_other hni, tm_getD_self (by rw [hL1]; exact hn), h1n]
  have h2o : ∀ j, j ≠ i → j ≠ p → j ≠ newIdx →
      treeGetD (treeAddChild (treeRemoveChild t p i) newIdx i) j
        = treeGetD t j := by
    intro j hj1 hj2 hj3
    rw [hac, tm_getD_other hj1, tm_getD_other hj3, h1o j hj1 hj2]
  refine ⟨?_, ?_, ?_, ?_, ?_⟩
  · unfold rewiredTree
    rw [tm_length, hL2]
  · unfold rewiredTree
    rw [tm_getD_self (by rw [hL2]; exact hi), h2i]
  · unfold rewiredTree
    rw [tm_getD_other hip, h2p]
  · unfold rewiredTree
    rw [tm_getD_other hni, h2n]
  · intro j hj1 hj2 hj3
    unfold rewiredTree
    rw [tm_getD_other hj1, h2o j hj1 hj2 hj3]

lemma rewire_core (ufuel : ℕ) (t t3 : RTree) (newIdx i p : ℕ)
    (d : ℕ → ℕ) (D : ℕ)
    (hcs : ChildSound t) (hcc : ChildComplete t) (hnd : NodupChildren t)
    (hci : CostInv t) (cert : DepthCert t d D)
    (hi : i < t.length) (hn : newIdx < t.length) (hplt : p < t.length)
    (hpi : parentOf t i = some p)
    (hip : p ≠ i) (hni : newIdx ≠ i) (hpn : p ≠ newIdx)
    (hndesc : ¬ Desc t i newIdx)
    (hfuel : D ≤ ufuel + d i)
    (hL3 : t3.length = t.length)
    (hpari3 : parentOf t3 i = some newIdx)
    (hpar3 : ∀ j, j ≠ i → parentOf t3 j = parentOf t j)
    (hcosti3 : costOf t3 i
      = costOf t newIdx + pyDist (posOf t newIdx) (posOf t i))
    (hcost3 : ∀ j, j ≠ i → costOf t3 j = costOf t j)
    (hpos3 : ∀ j, posOf t3 j = posOf t j)
    (hch3p : childrenOf t3 p = (childrenOf t p).erase i)
    (hch3n : childrenOf t3 newIdx = childrenOf t newIdx ++ [i])
    (hch3o : ∀ j, j ≠ p → j ≠ newIdx → childrenOf t3 j = childrenOf t j)
    (hnotmem : i ∉ childrenOf t newIdx) :
    CostInv (updateDescendants t3 ufuel i) := by
  classical
  have hin2 : i ≠ newIdx := fun e => hni e.symm
  have hin3 : i ≠ p := fun e => hip e.symm
  have hcs3 : ChildSound t3 := by
    intro j hj c hc
    rw [hL3] at hj
    have hc2 : c ∈ childrenOf t3 j := hc
    by_cases hjp : j = p
    · subst hjp
      rw [hch3p] at hc2
      have hcmp := (List.Nodup.mem_erase_iff (hnd j hj)).mp hc2
      obtain ⟨hclt, hcp⟩ := hcs j hj c hcmp.2
      refine ⟨by rw [hL3]; exact hclt, ?_⟩
      rw [hpar3 c hcmp.1]
      exact hcp
    · by_cases hjn : j = newIdx
      · subst hjn
        rw [hch3n] at hc2
        rcases List.mem_append.mp hc2 with hcm | hcm
        · have hcine : c ≠ i := by
            intro e
            rw [e] at hcm
            exact hnotmem hcm
          obtain ⟨hclt, hcp⟩ := hcs j hj c hcm
          refine ⟨by rw [hL3]; exact hclt, ?_⟩
          rw [hpar3 c hcine]
          exact hcp
        · rcases List.mem_singleton.mp hcm with rfl
          exact ⟨by rw [hL3]; exact hi, hpari3⟩
      · rw [hch3o j hjp hjn] at hc2
        obtain ⟨hclt, hcp⟩ := hcs j hj c hc2
        have hcine : c ≠ i := by
          intro e
          rw [e] at hcp
          exact hjp (Option.some_injective _ (hpi.symm.trans hcp)).symm
        refine ⟨by rw [hL3]; exact hclt, ?_⟩
        rw [hpar3 c hcine]
        exact hcp
  have hcc3 : ChildComplete t3 := by
    intro c hc q hq
    rw [hL3] at hc
    by_cases hcim : c = i
    · subst hcim
      have hqn : newIdx = q := Option.some_injective _ (hpari3.symm.trans hq)
      rw [← hqn]
      refine ⟨by rw [hL3]; exact hn, ?_⟩
      show c ∈ childrenOf t3 newIdx
      rw [hch3n]
      exact List.mem_append_right _ (List.mem_singleton.mpr rfl)
    · rw [hpar3 c hcim] at hq
      obtain ⟨hqlt, hqm⟩ := hcc c hc q hq
      refine ⟨by rw [hL3]; exact hqlt, ?_⟩
      show c ∈ childrenOf t3 q
      by_cases hqp : q = p
      · subst hqp
        rw [hch3p]
        exact (List.Nodup.mem_erase_iff (hnd q hqlt)).mpr ⟨hcim, hqm⟩
      · by_cases hqn : q = newIdx
        · subst hqn
          rw [hch3n]
          exact List.mem_append_left _ hqm
        · rw [hch3o q hqp hqn]
          exact hqm
  have hnd3 : NodupChildren t3 := by
    intro j hj
    rw [hL3] at hj
    by_cases hjp : j = p
    · subst hjp
      rw [hch3p]
      exact List.Nodup.erase i (hnd j hj)
    · by_cases hjn : j = newIdx
      · subst hjn
        rw [hch3n]
        rw [List.nodup_append]
        refine ⟨hnd j hj, List.nodup_singleton i, ?_⟩
        intro a ha hai
        rcases List.mem_singleton.mp hai with rfl
        exact hnotmem ha
      · rw [hch3o j hjp hjn]
        exact hnd j hj
  have cert3 : DepthCert t3
      (fun j => if j = i ∨ Desc t i j then d newIdx + 1 + d j else d j)
      (D + d newIdx + 1) := by
    constructor
    · intro j hj q hq
      rw [hL3] at hj
      dsimp only
      by_cases hji : j = i
      · subst hji
        have hqn : newIdx = q := Option.some_injective _ (hpari3.symm.trans hq)
        rw [← hqn, if_neg (by
          rintro (h | h)
          · exact hni h
          · exact hndesc h), if_pos (Or.inl rfl)]
        omega
      · have hq2 : parentOf t j = some q := by
          rw [← hpar3 j hji]
          exact hq
        have hdq : d q < d j := cert.1 j hj q hq2
        by_cases hjs : Desc t i j
        · rw [if_pos (Or.inr hjs)]
          rcases desc_parent hjs hq2 with hqi | hqd
          · rw [if_pos (Or.inl hqi.symm)]
            have : d i < d j := by
              rw [hqi]
              exact hdq
            omega
          · rw [if_pos (Or.inr hqd)]
            omega
        · have hqn2 : ¬ (q = i ∨ Desc t i q) := by
            rintro (rfl | h)
            · exact hjs (Desc.child j hq2)
            · exact hjs (Desc.step j q h hq2)
          have hjn2 : ¬ (j = i ∨ Desc t i j) := by
            rintro (h | h)
            · exact hji h
            · exact hjs h
          rw [if_neg hqn2, if_neg hjn2]
          exact hdq
    · intro j hj
      rw [hL3] at hj
      have := cert.2 j hj
      dsimp only
      by_cases hs : j = i ∨ Desc t i j
      · rw [if_pos hs]
        omega
      · rw [if_neg hs]
        omega
  have hfuel3 : D + d newIdx + 1
      ≤ ufuel + (fun j => if j = i ∨ Desc t i j
          then d newIdx + 1 + d j else d j) i := by
    dsimp only
    rw [if_pos (Or.inl rfl)]
    omega
  obtain ⟨uSE, uOut, uIn⟩ := ud_main ufuel i t3 _ _ hcs3 hcc3 hnd3 cert3 hfuel3
  have hndesc3 : ¬ Desc t3 i newIdx := by
    intro h
    have h1 := desc_depth cert3 h
    have h2 := cert3.1 i (by rw [hL3]; exact hi) newIdx hpari3
    exact absurd h1 (Nat.not_lt_of_lt h2)
  intro j hj q hq
  rw [uSE.1, hL3] at hj
  have hq3 : parentOf t3 j = some q := by
    rw [← (uSE.2 j).1]
    exact hq
  by_cases hdj : Desc t3 i j
  · obtain ⟨c2, hc2, hor⟩ := desc_first_child hcc3 hdj
    have heq := uIn c2 hc2 j hor q hq3
    show costOf (updateDescendants t3 ufuel i) j
      = costOf (updateDescendants t3 ufuel i) q
        + pyDist (posOf (updateDescendants t3 ufuel i) q)
          (posOf (updateDescendants t3 ufuel i) j)
    rw [heq, (uSE.2 q).2.2, (uSE.2 j).2.2]
  · by_cases hji : j = i
    · rw [hji] at hq3 ⊢
      have hqn : newIdx = q := Option.some_injective _ (hpari3.symm.trans hq3)
      rw [← hqn]
      show costOf (updateDescendants t3 ufuel i) i
        = costOf (updateDescendants t3 ufuel i) newIdx
          + pyDist (posOf (updateDescendants t3 ufuel i) newIdx)
            (posOf (updateDescendants t3 ufuel i) i)
      rw [uOut i (desc_irrefl cert3 i), uOut newIdx hndesc3, hcosti3,
        hcost3 newIdx hni, (uSE.2 newIdx).2.2, (uSE.2 i).2.2,
        hpos3 newIdx, hpos3 i]
    · have hq2 : parentOf t j = some q := by
        rw [← hpar3 j hji]
        exact hq3
      have hqi : q ≠ i := by
        rintro rfl
        exact hdj (Desc.child j hq3)
      have hqd : ¬ Desc t3 i q := fun h => hdj (Desc.step j q h hq3)
      show costOf (updateDescendants t3 ufuel i) j
        = costOf (updateDescendants t3 ufuel i) q
          + pyDist (posOf (updateDescendants t3 ufuel i) q)
            (posOf (updateDescendants t3 ufuel i) j)
      rw [uOut j hdj, uOut q hqd, hcost3 j hji, hcost3 q hqi,
        (uSE.2 q).2.2, (uSE.2 j).2.2, hpos3 q, hpos3 j]
      exact hci j hj q hq2

lemma rrt_rewire_single (g : Grid) (ufuel : ℕ) (t : RTree) (newIdx i : ℕ)
    (d : ℕ → ℕ) (D : ℕ)
    (hcs : ChildSound t) (hcc : ChildComplete t) (hnd : NodupChildren t)
    (hci : CostInv t) (cert : DepthCert t d D)
    (hi : i < t.length) (hn : newIdx < t.length)
    (hfuel : D ≤ ufuel + d i) :
    CostInv (rrt_rewire g ufuel t newIdx [i]) := by
  have hrw : rrt_rewire g ufuel t newIdx [i]
      = (if (treeGetD t i).parent.isSome
            && rrt_collision_free g (treeGetD t newIdx).pos
              (treeGetD t i).pos then
          if (treeGetD t newIdx).cost
              + pyDist (treeGetD t newIdx).pos (treeGetD t i).pos
              < (treeGetD t i).cost then
            updateDescendants
              (rewiredTree t ((treeGetD t i).parent.getD 0) newIdx i
                ((treeGetD t newIdx).cost
                  + pyDist (treeGetD t newIdx).pos (treeGetD t i).pos))
              ufuel i
          else t
        else t) := rfl
  rw [hrw]
  split
  case isFalse => exact hci
  case isTrue hcond =>
  split
  case isFalse => exact hci
  case isTrue hlt =>
  simp only [Bool.and_eq_true] at hcond
  obtain ⟨hpsome, _⟩ := hcond
  obtain ⟨p, hp⟩ := Option.isSome_iff_exists.mp hpsome
  have hpi : parentOf t i = some p := hp
  have hgd : (treeGetD t i).parent.getD 0 = p := by
    rw [hp]
    rfl
  rw [hgd]
  obtain ⟨hplt, hmem⟩ := hcc i hi p hpi
  have hdp : d p < d i := cert.1 i hi p hpi
  have hip : p ≠ i := by
    intro e
    rw [e] at hdp
    exact lt_irrefl _ hdp
  have hcieq : (treeGetD t i).cost
      = (treeGetD t p).cost
        + pyDist (treeGetD t p).pos (treeGetD t i).pos := hci i hi p hpi
  have hpn : p ≠ newIdx := by
    intro e
    rw [← e] at hlt
    rw [← hcieq] at hlt
    exact lt_irrefl _ hlt
  have hni : newIdx ≠ i := by
    intro e
    rw [e, pyDist_self, add_zero] at hlt
    exact lt_irrefl _ hlt
  have hndesc : ¬ Desc t i newIdx := by
    intro hdesc
    have hmono : costOf t i ≤ costOf t newIdx := cost_mono hci hdesc
    have hmono2 : (treeGetD t i).cost ≤ (treeGetD t newIdx).cost := hmono
    have hdn : 0 ≤ pyDist (treeGetD t newIdx).pos (treeGetD t i).pos :=
      pyDist_nonneg _ _
    linarith
  have hnotmem : i ∉ childrenOf t newIdx := by
    intro hm
    obtain ⟨_, hpar⟩ := hcs newIdx hn i hm
    exact hpn (Option.some_injective _ (hpi.symm.trans hpar))
  obtain ⟨hL3, h3i, h3p, h3n, h3o⟩ :=
    rewired_getD ((treeGetD t newIdx).cost
        + pyDist (treeGetD t newIdx).pos (treeGetD t i).pos)
      hip hni hpn hplt hn hi hmem hnotmem
  refine rewire_core ufuel t _ newIdx i p d D hcs hcc hnd hci cert hi hn hplt
    hpi hip hni hpn hndesc hfuel hL3 ?_ ?_ ?_ ?_ ?_ ?_ ?_ ?_ hnotmem
  · show (treeGetD _ i).parent = some newIdx
    rw [h3i]
  · intro j hj
    show (treeGetD _ j).parent = (treeGetD t j).parent
    by_cases hjp : j = p
    · rw [hjp, h3p]
    · by_cases hjn : j = newIdx
      · rw [hjn, h3n]
      · rw [h3o j hj hjp hjn]
  · show (treeGetD _ i).cost = _
    rw [h3i]
    rfl
  · intro j hj
    show (treeGetD _ j).cost = (treeGetD t j).cost
    by_cases hjp : j = p
    · rw [hjp, h3p]
    · by_cases hjn : j = newIdx
      · rw [hjn, h3n]
      · rw [h3o j hj hjp hjn]
  · intro j
    show (treeGetD _ j).pos = (treeGetD t j).pos
    by_cases hji : j = i
    · rw [hji, h3i]
      rfl
    · by_cases hjp : j = p
      · rw [hjp, h3p]
        rfl
      · by_cases hjn : j = newIdx
        · rw [hjn, h3n]
          rfl
        · rw [h3o j hji hjp hjn]
  · show (treeGetD _ p).children = _
    rw [h3p]
    rfl
  · show (treeGetD _ newIdx).children = _
    rw [h3n]
    rfl
  · intro j hjp hjn
    show (treeGetD _ j).children = (treeGetD t j).children
    by_cases hji : j = i
    · rw [hji, h3i]
    · rw [h3o j hji hjp hjn]

lemma tm_getD_cases (t : RTree) (i j : ℕ) (f : SNode → SNode) :
    treeGetD (treeModify t i f) j = treeGetD t j
    ∨ (j = i ∧ j < t.length
        ∧ treeGetD (treeModify t i f) j = f (treeGetD t j)) := by
  by_cases h1 : j = i
  · subst h1
    by_cases h2 : j < t.length
    · exact Or.inr ⟨rfl, h2, tm_getD_self h2 f⟩
    · left
      rw [tm_oob (Nat.le_of_not_lt h2)]
  · exact Or.inl (tm_getD_other h1 f)

lemma tm_pres (t : RTree) (i j : ℕ) (f : SNode → SNode)
    (hc : ∀ n, (f n).cost = n.cost) (hp2 : ∀ n, (f n).pos = n.pos)
    (hpar : ∀ n, (f n).parent = n.parent) :
    (treeGetD (treeModify t i f) j).cost = (treeGetD t j).cost
    ∧ (treeGetD (treeModify t i f) j).pos = (treeGetD t j).pos
    ∧ (treeGetD (treeModify t i f) j).parent = (treeGetD t j).parent := by
  rcases tm_getD_cases t i j f with h | ⟨_, _, h⟩
  · rw [h]
    exact ⟨rfl, rfl, rfl⟩
  · rw [h]
    exact ⟨hc _, hp2 _, hpar _⟩

lemma tac_length (X : RTree) (p c : ℕ) :
    (treeAddChild X p c).length = X.length := by
  unfold treeAddChild
  show (treeModify (treeModify X p _) c _).length = X.length
  rw [tm_length, tm_length]

lemma tm_cost_pos (t : RTree) (i j : ℕ) (f : SNode → SNode)
    (hc : ∀ n, (f n).cost = n.cost) (hp2 : ∀ n, (f n).pos = n.pos) :
    (treeGetD (treeModify t i f) j).cost = (treeGetD t j).cost
    ∧ (treeGetD (treeModify t i f) j).pos = (treeGetD t j).pos := by
  rcases tm_getD_cases t i j f with h | ⟨_, _, h⟩
  · rw [h]
    exact ⟨rfl, rfl⟩
  · rw [h]
    exact ⟨hc _, hp2 _⟩

lemma tac_cost_pos (X : RTree) (p c j : ℕ) :
    (treeGetD (treeAddChild X p c) j).cost = (treeGetD X j).cost
    ∧ (treeGetD (treeAddChild X p c) j).pos = (treeGetD X j).pos := by
  unfold treeAddChild
  show (treeGetD (treeModify (treeModify X p (fun n =>
      if c ∈ n.children then n
      else { n with children := n.children ++ [c] })) c
      (fun n => { n with parent := some p })) j).cost = _ ∧ _
  have h1 := tm_cost_pos (treeModify X p (fun n =>
      if c ∈ n.children then n
      else { n with children := n.children ++ [c] })) c j
    (fun n => { n with parent := some p }) (fun _ => rfl) (fun _ => rfl)
  have h2 := tm_cost_pos X p j (fun n =>
      if c ∈ n.children then n
      else { n with children := n.children ++ [c] })
    (fun n => by
      dsimp only
      by_cases hch : c ∈ n.children
      · rw [if_pos hch]
      · rw [if_neg hch])
    (fun n => by
      dsimp only
      by_cases hch : c ∈ n.children
      · rw [if_pos hch]
      · rw [if_neg hch]
        rfl)
  exact ⟨h1.1.trans h2.1, h1.2.trans h2.2⟩

lemma tac_parent_other (X : RTree) (p c j : ℕ) (hj : j ≠ c) :
    (treeGetD (treeAddChild X p c) j).parent = (treeGetD X j).parent := by
  unfold treeAddChild
  show (treeGetD (treeModify (treeModify X p (fun n =>
      if c ∈ n.children then n
      else { n with children := n.children ++ [c] })) c
      (fun n => { n with parent := some p })) j).parent = _
  rw [tm_getD_other hj]
  rcases tm_getD_cases X p j (fun n =>
      if c ∈ n.children then n
      else { n with children := n.children ++ [c] }) with h | ⟨_, _, h⟩
  · rw [h]
  · rw [h]
    by_cases hch : c ∈ (treeGetD X j).children
    · rw [if_pos hch]
    · rw [if_neg hch]

lemma tac_parent_self (X : RTree) (p c : ℕ) (hc : c < X.length) :
    (treeGetD (treeAddChild X p c) c).parent = some p := by
  unfold treeAddChild
  show (treeGetD (treeModify (treeModify X p (fun n =>
      if c ∈ n.children then n
      else { n with children := n.children ++ [c] })) c
      (fun n => { n with parent := some p })) c).parent = _
  rw [tm_getD_self (by rw [tm_length]; exact hc)]

lemma tgetD_append_lt {t : RTree} {node : SNode} {j : ℕ} (h : j < t.length) :
    treeGetD (t ++ [node]) j = treeGetD t j := by
  unfold treeGetD
  rw [List.get?_append h]

lemma tgetD_append_self {t : RTree} {node : SNode} :
    treeGetD (t ++ [node]) t.length = node := by
  unfold treeGetD
  rw [List.get?_concat_length]
  rfl

lemma extend_tree_inv (t : RTree) (fromIdx : ℕ) (node : SNode)
    (hpar : node.parent = some fromIdx)
    (hcost : node.cost = (treeGetD t fromIdx).cost
      + pyDist (treeGetD t fromIdx).pos node.pos)
    (hf : fromIdx < t.length)
    (hpb : ParentBound t) (hci : CostInv t) :
    treeAddChild (t ++ [node]) fromIdx t.length ≠ []
    ∧ ParentBound (treeAddChild (t ++ [node]) fromIdx t.length)
    ∧ CostInv (treeAddChild (t ++ [node]) fromIdx t.length) := by
  have hL : (treeAddChild (t ++ [node]) fromIdx t.length).length
      = t.length + 1 := by
    rw [tac_length, List.length_append]
    rfl
  have hparfacts : ∀ j, j < t.length →
      parentOf (treeAddChild (t ++ [node]) fromIdx t.length) j
        = parentOf t j := by
    intro j hj
    show (treeGetD _ j).parent = (treeGetD t j).parent
    rw [tac_parent_other _ _ _ _ (Nat.ne_of_lt hj), tgetD_append_lt hj]
  have hparnew : parentOf (treeAddChild (t ++ [node]) fromIdx t.length)
      t.length = some fromIdx := by
    show (treeGetD _ _).parent = _
    rw [tac_parent_self _ _ _ (by
      rw [List.length_append]
      exact Nat.lt_succ_self _)]
  have hcp : ∀ j, j < t.length →
      (treeGetD (treeAddChild (t ++ [node]) fromIdx t.length) j).cost
          = (treeGetD t j).cost
        ∧ (treeGetD (treeAddChild (t ++ [node]) fromIdx t.length) j).pos
          = (treeGetD t j).pos := by
    intro j hj
    obtain ⟨h1, h2⟩ := tac_cost_pos (t ++ [node]) fromIdx t.length j
    rw [h1, h2, tgetD_append_lt hj]
    exact ⟨rfl, rfl⟩
  have hcpnew :
      (treeGetD (treeAddChild (t ++ [node]) fromIdx t.length) t.length).cost
          = node.cost
        ∧ (treeGetD (treeAddChild (t ++ [node]) fromIdx t.length)
            t.length).pos = node.pos := by
    obtain ⟨h1, h2⟩ := tac_cost_pos (t ++ [node]) fromIdx t.length t.length
    rw [h1, h2, tgetD_append_self]
    exact ⟨rfl, rfl⟩
  refine ⟨?_, ?_, ?_⟩
  · intro he
    have := hL
    rw [he] at this
    exact Nat.noConfusion this
  · intro j hj q hq
    rw [hL] at hj
    rw [hL]
    rcases Nat.lt_succ_iff_lt_or_eq.mp hj with hj2 | hj2
    · rw [hparfacts j hj2] at hq
      exact lt_trans (hpb j hj2 q hq) (Nat.lt_succ_self _)
    · rw [hj2, hparnew] at hq
      have : fromIdx = q := Option.some_injective _ hq
      rw [← this]
      exact lt_trans hf (Nat.lt_succ_self _)
  · intro j hj q hq
    rw [hL] at hj
    rcases Nat.lt_succ_iff_lt_or_eq.mp hj with hj2 | hj2
    · rw [hparfacts j hj2] at hq
      have hqlt := hpb j hj2 q hq
      have heqn := hci j hj2 q hq
      rw [(hcp j hj2).1, (hcp j hj2).2, (hcp q hqlt).1, (hcp q hqlt).2]
      exact heqn
    · rw [hj2] at hq ⊢
      rw [hparnew] at hq
      have hqf : fromIdx = q := Option.some_injective _ hq
      rw [← hqf, hcpnew.1, hcpnew.2, (hcp fromIdx hf).1, (hcp fromIdx hf).2]
      exact hcost

lemma rrt_nearest_lt {t : RTree} {sample : ℚ × ℚ} {n : ℕ}
    (h : rrt_nearest t sample = some n) : n < t.length := by
  match t with
  | [] => exact absurd h (by unfold rrt_nearest; simp)
  | a :: l =>
      have he : rrt_nearest (a :: l) sample
          = some (((List.range (a :: l).length).drop 1).foldl
              (fun best i =>
                if pyDist (treeGetD (a :: l) i).pos sample
                    < pyDist (treeGetD (a :: l) best).pos sample then i
                else best) 0) := rfl
      rw [he] at h
      have hn := Option.some_injective _ h
      rw [← hn]
      refine foldl_mem_inv _ (fun x => x < (a :: l).length) _ 0 ?_
        (Nat.succ_pos _)
      intro x b hb hx
      dsimp only
      split
      · exact List.mem_range.mp (List.mem_of_mem_drop hb)
      · exact hx

lemma rrt_extend_inv (g : Grid) (step : ℚ) (t : RTree) (fromIdx : ℕ)
    (sample : ℚ × ℚ) (hne : t ≠ []) (hpb : ParentBound t) (hci : CostInv t)
    (hf : fromIdx < t.length) :
    (rrt_extend g step t fromIdx sample).1 ≠ []
    ∧ ParentBound (rrt_extend g step t fromIdx sample).1
    ∧ CostInv (rrt_extend g step t fromIdx sample).1 := by
  unfold rrt_extend
  dsimp only
  split
  · exact ⟨hne, hpb, hci⟩
  · split
    · exact extend_tree_inv t fromIdx _ rfl rfl hf hpb hci
    · exact ⟨hne, hpb, hci⟩

lemma rrtLoop_inv (g : Grid) (step : ℚ) (goalPos : ℚ × ℚ)
    (draws : ℕ → Bool × (ℚ × ℚ)) :
    ∀ (remaining i : ℕ) (t : RTree) (m : Metrics),
      t ≠ [] → ParentBound t → CostInv t →
      CostInv (rrtLoop g step goalPos draws i remaining t m).1 := by
  intro remaining
  induction remaining with
  | zero =>
      intro i t m _ _ hci
      exact hci
  | succ k ih =>
      intro i t m hne hpb hci
      rw [rrtLoop]
      dsimp only
      split
      · exact ih _ _ _ hne hpb hci
      · next nearest hnear =>
          split
          · next t2 heq =>
              have hext := rrt_extend_inv g step t nearest
                (if (draws i).1 then goalPos else (draws i).2) hne hpb hci
                (rrt_nearest_lt hnear)
              rw [heq] at hext
              exact ih _ _ _ hext.1 hext.2.1 hext.2.2
          · next t2 newIdx heq =>
              have hext := rrt_extend_inv g step t nearest
                (if (draws i).1 then goalPos else (draws i).2) hne hpb hci
                (rrt_nearest_lt hnear)
              rw [heq] at hext
              split
              · split
                · exact hext.2.2
                · exact ih _ _ _ hext.1 hext.2.1 hext.2.2
              · exact ih _ _ _ hext.1 hext.2.1 hext.2.2

/-- C8: the sampling-tree cost invariant cost(node) = cost(parent) +
dist(parent, node).  First conjunct: the RRT sampling loop preserves the
invariant from any tree satisfying it (in particular from the singleton
root tree with which find_path starts, so it holds throughout RRT
execution; extension installs exactly cost(parent) + dist on the new
node).  Second conjunct: one firing step of RRTStar._rewire_tree restores
the invariant for the WHOLE tree: after the nearby node is re-parented
under the new node with the lower cost, _update_descendant_costs
transitively refreshes every descendant, given a well-formed tree
(sound/complete duplicate-free child lists, an acyclicity depth
certificate) and recursion fuel covering the subtree depth, which models
the unbounded Python recursion. -/
theorem C8_rrt_cost_invariant_rewire :
    (∀ (g : Grid) (step : ℚ) (goalPos : ℚ × ℚ)
        (draws : ℕ → Bool × (ℚ × ℚ)) (remaining i : ℕ) (t : RTree)
        (m : Metrics), t ≠ [] → ParentBound t → CostInv t →
        CostInv (rrtLoop g step goalPos draws i remaining t m).1)
    ∧ (∀ (g : Grid) (ufuel : ℕ) (t : RTree) (newIdx i : ℕ) (d : ℕ → ℕ)
        (D : ℕ), ChildSound t → ChildComplete t → NodupChildren t →
        CostInv t → DepthCert t d D → i < t.length → newIdx < t.length →
        D ≤ ufuel + d i →
        CostInv (rrt_rewire g ufuel t newIdx [i])) :=
  ⟨fun g step goalPos draws remaining i t m hne hpb hci =>
      rrtLoop_inv g step goalPos draws remaining i t m hne hpb hci,
    fun g ufuel t newIdx i d D hcs hcc hnd hci cert hi hn hfuel =>
      rrt_rewire_single g ufuel t newIdx i d D hcs hcc hnd hci cert hi hn
        hfuel⟩

/-- Witness for C8: a one-iteration RRT run from a singleton root, and the
concrete rewiring of node 2 of c8tree through node 3, both with every
hypothesis discharged by evaluation. -/
theorem C8_rrt_cost_invariant_rewire_witness :
    CostInv (rrtLoop (mkGrid 3 3 []) 1 ((2 : ℚ), (0 : ℚ))
        (fun _ => (true, ((0 : ℚ), (0 : ℚ)))) 0 1
        [⟨0, 0, none, [], 0⟩] Metrics.init).1
    ∧ CostInv (rrt_rewire (mkGrid 20 20 []) 5 c8tree 3 [2]) :=
  ⟨C8_rrt_cost_invariant_rewire.1 (mkGrid 3 3 []) 1 ((2 : ℚ), (0 : ℚ))
      (fun _ => (true, ((0 : ℚ), (0 : ℚ)))) 1 0
      [⟨0, 0, none, [], 0⟩] Metrics.init
      (by simp) (parentBound_of_B (by with_unfolding_all decide))
      (costInv_of_B (by with_unfolding_all decide)),
    C8_rrt_cost_invariant_rewire.2 (mkGrid 20 20 []) 5 c8tree 3 2 c8depth 4
      (childSound_of_B (by with_unfolding_all decide))
      (childComplete_of_B (by with_unfolding_all decide))
      (nodupChildren_of_B (by with_unfolding_all decide))
      (costInv_of_B (by with_unfolding_all decide))
      (depthCert_of_B (by with_unfolding_all decide))
      (by with_unfolding_all decide) (by with_unfolding_all decide)
      (by with_unfolding_all decide)⟩
